import Mathlib

/-!
Verification of the marko markdown editor's layout core against its
natural-language specification.

Rust strings are modelled as `List Char`; `str::len()` (a UTF-8 byte count)
is `sLen`, and byte-indexed slicing — which panics when the index is not a
character boundary — is modelled by `Option`-valued `slicePre`/`sliceSuf`.
Machine integers (`usize`) are `Nat`; the one place where subtraction can
underflow is modelled with explicit wrapping modulo `2 ^ 64`
(release-build semantics; debug builds panic there instead).
`f64` arithmetic on small integer ratios is modelled as exact rational
arithmetic: `(x as f64 * y as f64 / z as f64).floor() as usize` is `x * y / z`
on `Nat`, and `.round()` (round half away from zero, positive arguments)
is `(2 * x * y + z) / (2 * z)`.  Every concrete input evaluated in this file
keeps those ratios inside the range where `f64` is exact.
-/

namespace Marko

/-- UTF-8 encoded size in bytes of a Unicode scalar value (Rust `char::len_utf8`). -/
def utf8Size (c : Char) : Nat :=
  if c.toNat < 0x80 then 1
  else if c.toNat < 0x800 then 2
  else if c.toNat < 0x10000 then 3
  else 4

/-- Rust `str::len()`: the UTF-8 byte length of a string. -/
def sLen (s : List Char) : Nat := (s.map utf8Size).sum

/-- Rust `char::is_whitespace`: the Unicode White_Space property. -/
def isRustWhitespace (c : Char) : Bool :=
  c.toNat ∈ [0x09, 0x0A, 0x0B, 0x0C, 0x0D, 0x20, 0x85, 0xA0, 0x1680,
    0x2000, 0x2001, 0x2002, 0x2003, 0x2004, 0x2005, 0x2006, 0x2007,
    0x2008, 0x2009, 0x200A, 0x2028, 0x2029, 0x202F, 0x205F, 0x3000]

/-- Rust `str::trim_start()`. -/
def trimStartL (s : List Char) : List Char := s.dropWhile isRustWhitespace

/-- Rust `str::trim_end()`: drop the maximal whitespace suffix. -/
def trimEndL : List Char → List Char
  | [] => []
  | c :: rest =>
    match trimEndL rest with
    | [] => if isRustWhitespace c then [] else [c]
    | r => c :: r

/-- Rust `str::trim()`. -/
def trimL (s : List Char) : List Char := trimEndL (trimStartL s)

/-- Rust `str::starts_with(pat)` for a string pattern. -/
def startsWithL : List Char → List Char → Bool
  | [], _ => true
  | _ :: _, [] => false
  | p :: ps, c :: cs => p = c && startsWithL ps cs

/-- Rust `s[..k]`: the prefix of `s` holding exactly `k` bytes.  Returns `none`
(a Rust panic) when `k` is not a character boundary or exceeds the length. -/
def slicePre : List Char → Nat → Option (List Char)
  | _, 0 => some []
  | [], _ + 1 => none
  | c :: cs, k + 1 =>
    if utf8Size c ≤ k + 1 then (slicePre cs (k + 1 - utf8Size c)).map (c :: ·) else none

/-- Rust `s[k..]`: the suffix of `s` after the first `k` bytes.  Returns `none`
(a Rust panic) when `k` is not a character boundary or exceeds the length. -/
def sliceSuf : List Char → Nat → Option (List Char)
  | s, 0 => some s
  | [], _ + 1 => none
  | c :: cs, k + 1 =>
    if utf8Size c ≤ k + 1 then sliceSuf cs (k + 1 - utf8Size c) else none

/-- Rust `str::rfind(' ')`: byte index of the last space character, if any. -/
def rfindSpace : List Char → Option Nat
  | [] => none
  | c :: cs =>
    match rfindSpace cs with
    | some i => some (utf8Size c + i)
    | none => if c = ' ' then some 0 else none

/-- Rust `str::find(pat)`: byte index of the first occurrence of `pat`. -/
def findSub (pat : List Char) : List Char → Option Nat
  | [] => if pat.isEmpty then some 0 else none
  | c :: cs =>
    if startsWithL pat (c :: cs) then some 0
    else (findSub pat cs).map (utf8Size c + ·)

/-- Whether `pat` occurs as a contiguous substring. -/
def containsSubstr (pat s : List Char) : Bool := (findSub pat s).isSome

/-- Rust `str::split(sep)` over characters: always returns at least one chunk. -/
def splitOnC (sep : Char) : List Char → List (List Char)
  | [] => [[]]
  | c :: cs =>
    if c = sep then [] :: splitOnC sep cs
    else
      match splitOnC sep cs with
      | [] => [[c]]
      | h :: t => (c :: h) :: t

/-- Joining a list of strings with a single separator character
(the model of `Vec::join` for a one-character separator). -/
def joinSep (sep : Char) : List (List Char) → List Char
  | [] => []
  | [l] => l
  | l :: ls => l ++ sep :: joinSep sep ls

/-- Rust `str::split_inclusive('\n')`: chunks that keep their trailing newline;
the empty string yields no chunks. -/
def splitIncNl : List Char → List (List Char)
  | [] => []
  | c :: cs =>
    if c = '\n' then [c] :: splitIncNl cs
    else
      match splitIncNl cs with
      | [] => [[c]]
      | h :: t => (c :: h) :: t

/-- Strip a trailing `'\n'`, and then a trailing `'\r'` only when the `'\n'`
was present (the per-chunk map inside Rust `str::lines()`). -/
def stripLineEnd (l : List Char) : List Char :=
  match l.reverse with
  | '\n' :: '\r' :: rest => rest.reverse
  | '\n' :: rest => rest.reverse
  | _ => l

/-- Rust `str::lines()`. -/
def rustLines (s : List Char) : List (List Char) := (splitIncNl s).map stripLineEnd

/-! ## Table layout negotiation (src/markdown/table_format.rs, src/markdown/renderer.rs) -/

/-- The `usize` modulus. -/
def U64 : Nat := 2 ^ 64

/-- Wrapping `usize` subtraction `a - b` (release-build overflow semantics;
a debug build panics when `b > a`). -/
def wrapSub64 (a b : Nat) : Nat := (a + (U64 - b % U64)) % U64

/-- Rust `f64::round()` of the exact ratio `a / b`, for nonnegative values:
round half away from zero.  `b = 0` gives NaN, and `NaN as usize` is `0`. -/
def rustRound (a b : Nat) : Nat := if b = 0 then 0 else (2 * a + b) / (2 * b)

/-- Loop body of `distribute_widths` (table_format.rs:324-347): every column but
the last gains `round(extra * natural_i / natural_total)`; the last column gains
`extra - distributed`, a `usize` subtraction that wraps when the rounded shares
overshoot `extra`. -/
def distGo (total extra : Nat) : List Nat → Nat → List Nat
  | [], _ => []
  | [w], distributed => [(w + wrapSub64 extra distributed) % U64]
  | w :: ws, distributed =>
    (w + rustRound (extra * w) total) :: distGo total extra ws (distributed + rustRound (extra * w) total)

/-- `distribute_widths` from table_format.rs:324-347. -/
def distribute_widths (natural : List Nat) (available : Nat) : List Nat :=
  if natural.sum = 0 ∨ available ≤ natural.sum then natural
  else distGo natural.sum (available - natural.sum) natural 0

/-- Loop body of `shrink_widths` (table_format.rs:297-320): every column but the
last becomes `max 3 (floor (available * natural_i / natural_total))`; the last
becomes `max 3 (available -sat used)`. -/
def shrinkGo (total available : Nat) : List Nat → Nat → List Nat
  | [], _ => []
  | [_w], used => [max (available - used) 3]
  | w :: ws, used =>
    max (available * w / total) 3 :: shrinkGo total available ws (used + max (available * w / total) 3)

/-- `shrink_widths` from table_format.rs:297-320. -/
def shrink_widths (natural : List Nat) (available : Nat) : List Nat :=
  if natural.sum = 0 then natural
  else shrinkGo natural.sum available natural 0

/-- Column-width negotiation of `try_format_table` (table_format.rs:191-220):
floor each natural width at 3, then expand, shrink, or keep as the available
width dictates.  Empty input models the `num_cols == 0` early return. -/
def tryFormatTableColWidths (naturalRaw : List Nat) (available : Nat) : List Nat :=
  if naturalRaw.isEmpty then []
  else
    let nw := naturalRaw.map (fun w => max w 3)
    let total := nw.sum
    if 0 < total ∧ total < available then distribute_widths nw available
    else if available < total ∧ 0 < available then shrink_widths nw available
    else nw

/-- Expansion loop of `render_table` (renderer.rs:551-567).  `n` is the full
column count (`col_widths.len()`), used only in the dead `natural_total == 0`
branch of the share computation. -/
def rtExpandGo (n total extra : Nat) : List Nat → Nat → List Nat
  | [], _ => []
  | [w], distributed => [(w + wrapSub64 extra distributed) % U64]
  | w :: ws, distributed =>
    let share := if 0 < total then rustRound (extra * w) total else extra / n
    (w + share) :: rtExpandGo n total extra ws (distributed + share)

/-- Shrink loop of `render_table` (renderer.rs:568-581). -/
def rtShrinkGo (total available : Nat) : List Nat → Nat → List Nat
  | [], _ => []
  | [_w], shrunk => [max (available - shrunk) 3]
  | w :: ws, shrunk =>
    max (available * w / total) 3 :: rtShrinkGo total available ws (shrunk + max (available * w / total) 3)

/-- Column-width negotiation of the preview renderer's `render_table`
(renderer.rs:529-581): floor each natural width at 3, then expand or shrink in
place.  Empty input models the `num_cols == 0` early return. -/
def renderTableColWidths (naturalRaw : List Nat) (available : Nat) : List Nat :=
  if naturalRaw.isEmpty then []
  else
    let col := naturalRaw.map (fun w => max w 3)
    let total := col.sum
    if total < available then rtExpandGo naturalRaw.length total (available - total) col 0
    else if available < total ∧ 0 < available then rtShrinkGo total available col 0
    else col

/-! ## Hard wrap and table-row detection (src/markdown/table_format.rs) -/

/-- The string `"``` "`-style fence marker (three backticks). -/
def fence3 : List Char := "```".toList

/-- The alternate fence marker `~~~`. -/
def tilde3 : List Char := "~~~".toList

/-- The ordered-list pattern `". "`. -/
def dotSpace : List Char := ". ".toList

/-- The unordered-list marker `"- "`. -/
def dashSpace : List Char := "- ".toList

/-- The unordered-list marker `"* "`. -/
def starSpace : List Char := "* ".toList

/-- The unordered-list marker `"+ "`. -/
def plusSpace : List Char := "+ ".toList

/-- The blockquote marker `"> "`. -/
def gtSpace : List Char := "> ".toList

/-- Whether `rest[..pos]` consists of ASCII digits only (the ordered-list check
inside `continuation_indent`); `false` on a non-boundary slice. -/
def digitsPre (rest : List Char) (pos : Nat) : Bool :=
  match slicePre rest pos with
  | some p => p.all (·.isDigit)
  | none => false

/-- `continuation_indent` from table_format.rs:58-78. -/
def continuation_indent (line : List Char) : List Char :=
  let leading := line.takeWhile isRustWhitespace
  let rest := line.drop leading.length
  let orderedPos : Option Nat :=
    match findSub dotSpace rest with
    | some pos => if digitsPre rest pos && pos ≤ 4 then some pos else none
    | none => none
  match orderedPos with
  | some pos => List.replicate (sLen leading + pos + 2) ' '
  | none =>
    if startsWithL dashSpace rest || startsWithL starSpace rest || startsWithL plusSpace rest then
      List.replicate (sLen leading + 2) ' '
    else if startsWithL gtSpace rest then leading ++ gtSpace
    else leading

/-- The ordered-list test inside `continuation_indent` (table_format.rs:62-66)
applied to a line with no leading whitespace: whether the line starts with up to
four digits followed by `". "`. -/
def orderedMarker (line : List Char) : Bool :=
  match findSub dotSpace line with
  | some pos => digitsPre line pos && pos ≤ 4
  | none => false

/-- Loop of `wrap_line` (table_format.rs:81-116).  `fuel` only bounds the
recursion: every iteration that recurses consumes at least one character of
`remaining`, so the wrapper's `line.length + 1` can never run out.  A `none`
result models a Rust panic: the byte slice `remaining[..k]` at an index that is
not a character boundary. -/
def wrapGo (width : Nat) (cont : List Char) : Nat → Bool → List Char → Option (List (List Char))
  | 0, _, _ => none
  | _fuel + 1, _, [] => some []
  | fuel + 1, isFirst, remaining =>
    let pfx := if isFirst then [] else cont
    let avail := width - sLen pfx
    if avail = 0 then some [pfx ++ remaining]
    else if sLen pfx + sLen remaining ≤ width then some [pfx ++ remaining]
    else
      match slicePre remaining (min avail (sLen remaining)) with
      | none => none
      | some region =>
        match rfindSpace region with
        | some pos =>
          if 0 < pos then
            match slicePre remaining pos, sliceSuf remaining pos with
            | some seg, some rest =>
              (wrapGo width cont fuel false (trimStartL rest)).map ((pfx ++ seg) :: ·)
            | _, _ => none
          else
            match sliceSuf remaining (min avail (sLen remaining)) with
            | some rest => (wrapGo width cont fuel false rest).map ((pfx ++ region) :: ·)
            | none => none
        | none =>
          match sliceSuf remaining (min avail (sLen remaining)) with
          | some rest => (wrapGo width cont fuel false rest).map ((pfx ++ region) :: ·)
          | none => none

/-- `wrap_line` from table_format.rs:81-116, collecting the pushed segments. -/
def wrap_line (line : List Char) (width : Nat) (continuation : List Char) :
    Option (List (List Char)) :=
  wrapGo width continuation (line.length + 1) true line

/-- The cell list of a candidate separator row: `trimmed.split('|')`. -/
def sepCells (line : List Char) : List (List Char) := splitOnC '|' (trimL line)

/-- Drop the leading cell when it is whitespace-only
(`cells.first().map_or(false, |c| c.trim().is_empty())`). -/
def sepInner1 (line : List Char) : List (List Char) :=
  match sepCells line with
  | [] => sepCells line
  | c :: rest => if (trimL c).isEmpty then rest else sepCells line

/-- Additionally drop the trailing cell when it is whitespace-only. -/
def sepInner2 (line : List Char) : List (List Char) :=
  match (sepInner1 line).getLast? with
  | some lastCell => if (trimL lastCell).isEmpty then (sepInner1 line).dropLast else sepInner1 line
  | none => sepInner1 line

/-- `is_separator_row` from table_format.rs:250-276. -/
def is_separator_row (line : List Char) : Bool :=
  if ! (trimL line).contains '|' then false
  else if (sepInner2 line).isEmpty then false
  else
    (sepInner2 line).all fun cell =>
      ! (trimL cell).isEmpty && (trimL cell).all fun ch => ch = '-' || ch = ':' || ch = ' '

/-- Per-line loop of `hard_wrap` (table_format.rs:3-52). -/
def hwGo (width : Nat) : Bool → List (List Char) → Option (List (List Char))
  | _, [] => some []
  | inFence, l :: ls =>
    let trimmed := trimStartL l
    if startsWithL fence3 trimmed || startsWithL tilde3 trimmed then
      (hwGo width (! inFence) ls).map (l :: ·)
    else if inFence then (hwGo width inFence ls).map (l :: ·)
    else if startsWithL ['#'] trimmed then (hwGo width inFence ls).map (l :: ·)
    else if l.contains '|' && is_separator_row l then (hwGo width inFence ls).map (l :: ·)
    else if l.contains '|' && startsWithL ['|'] (trimStartL l) then (hwGo width inFence ls).map (l :: ·)
    else if sLen l ≤ width then (hwGo width inFence ls).map (l :: ·)
    else
      match wrap_line l width (continuation_indent l) with
      | some segs => (hwGo width inFence ls).map (segs ++ ·)
      | none => none

/-- `hard_wrap` from table_format.rs:3-52; `none` models a panic. -/
def hard_wrap (content : List Char) (width : Nat) : Option (List Char) :=
  if width = 0 then some content
  else (hwGo width false (rustLines content)).map (joinSep '\n')

/-! ## Code fence regions (src/markdown/code_highlight.rs) -/

/-- `CodeFenceRegion` from code_highlight.rs:143-150. -/
structure CodeFenceRegion where
  start_line : Nat
  end_line : Nat
  language : List Char
deriving DecidableEq

/-- Whether a line opens a fence: its trimmed start begins with three backticks
(code_highlight.rs:159). -/
def isFenceStart (l : List Char) : Bool := startsWithL fence3 (trimStartL l)

/-- Whether a line is a bare closing fence: three backticks followed only by
whitespace (code_highlight.rs:168). -/
def isBareClose (l : List Char) : Bool :=
  let t := trimStartL l
  startsWithL fence3 t && (trimL (t.drop 3)).isEmpty

/-- The language token of an opening fence line (code_highlight.rs:160). -/
def fenceLang (l : List Char) : List Char := trimL ((trimStartL l).drop 3)

/-- Inner loop of `find_code_fence_regions` (code_highlight.rs:164-174): find
the first bare closing fence at index `j` or later, returning its absolute
index and the lines after it. -/
def findCloseIdx (j : Nat) : List (List Char) → Option (Nat × List (List Char))
  | [] => none
  | l :: ls => if isBareClose l then some (j, ls) else findCloseIdx (j + 1) ls

/-- Outer loop of `find_code_fence_regions` (code_highlight.rs:153-187).
`total` is `lines.len()`; `i` the absolute index of the head of `ls`.  `fuel`
only bounds the recursion: every recursive call advances `i` by at least one
line, so the wrapper's `lines.length + 1` can never run out. -/
def regionsGo (total : Nat) : Nat → Nat → List (List Char) → List CodeFenceRegion
  | 0, _, _ => []
  | _fuel + 1, _, [] => []
  | fuel + 1, i, l :: ls =>
    if isFenceStart l then
      match findCloseIdx (i + 1) ls with
      | some (e, rest) => ⟨i, e, fenceLang l⟩ :: regionsGo total fuel (e + 1) rest
      | none => [⟨i, total - 1, fenceLang l⟩]
    else regionsGo total fuel (i + 1) ls

/-- `find_code_fence_regions` from code_highlight.rs:153-187. -/
def find_code_fence_regions (lines : List (List Char)) : List CodeFenceRegion :=
  regionsGo lines.length (lines.length + 1) 0 lines

/-- Specification state machine: scan the lines with an inside-a-fence flag; a
fence-start line seen outside a fence is an opening fence marker, and a bare
closing fence seen inside ends the fence. -/
def openGo : Nat → Bool → List (List Char) → List Nat
  | _, _, [] => []
  | i, false, l :: ls => if isFenceStart l then i :: openGo (i + 1) true ls else openGo (i + 1) false ls
  | i, true, l :: ls => if isBareClose l then openGo (i + 1) false ls else openGo (i + 1) true ls

/-- The document-order list of opening fence marker indices. -/
def openingIndices (lines : List (List Char)) : List Nat := openGo 0 false lines

/-- Concrete input for the C6 witness: an unclosed fence. -/
def c6Lines : List (List Char) := ["```rust".toList, "let x = 1;".toList]

/-! ## Markdown renderer, heading fragment (src/markdown/renderer.rs)

Spans are modelled by their text content alone: the renderer's `Style` values
never influence which characters are emitted, and the claims below speak only
about the concatenated span text of each line. -/

/-- A rendered span, modelled as its content. -/
abbrev Span : Type := List Char

/-- A rendered line: a list of spans. -/
abbrev RLine : Type := List Span

/-- Display width of one character, as the unicode-width crate computes it.
Every character this development feeds through the renderer (ASCII text, `#`,
box-drawing glyphs) has width 1 there; wide and zero-width characters are out
of scope of the modelled inputs. -/
def charDispWidth (_c : Char) : Nat := 1

/-- Ratatui `Span::width()`: the display width of the span content. -/
def spanWidth (s : Span) : Nat := (List.map charDispWidth s).sum

/-- Rust `str::split_inclusive(' ')`: chunks keeping their trailing space. -/
def splitIncSp : List Char → List (List Char)
  | [] => []
  | c :: cs =>
    if c = ' ' then [c] :: splitIncSp cs
    else
      match splitIncSp cs with
      | [] => [[c]]
      | h :: t => (c :: h) :: t

/-- One `for word in text.split_inclusive(' ')` step of `word_wrap`
(renderer.rs:701-709): state is (result, current, col). -/
def wwStep (maxWidth : Nat) (acc : List (List Char) × List Char × Nat) (word : List Char) :
    List (List Char) × List Char × Nat :=
  let (result, current, col) := acc
  if maxWidth < col + sLen word ∧ ¬ current.isEmpty then
    (result ++ [current], word, sLen word)
  else (result, current ++ word, col + sLen word)

/-- `word_wrap` from renderer.rs:689-720. -/
def word_wrap (text : List Char) (maxWidth : Nat) (existingSpans : List Span) :
    List (List Char) :=
  let currentCol := (List.map spanWidth existingSpans).sum
  let remaining := maxWidth - currentCol
  if sLen text ≤ remaining then [text]
  else
    let acc := (splitIncSp text).foldl (wwStep maxWidth) ([], [], currentCol)
    let result := if acc.2.1.isEmpty then acc.1 else acc.1 ++ [acc.2.1]
    if result.isEmpty then [text] else result

/-- Character table of `to_superscript` (math.rs:182-192). -/
def superChar (c : Char) : Char :=
  match c with
  | '0' => '⁰' | '1' => '¹' | '2' => '²' | '3' => '³' | '4' => '⁴'
  | '5' => '⁵' | '6' => '⁶' | '7' => '⁷' | '8' => '⁸' | '9' => '⁹'
  | '+' => '⁺' | '-' => '⁻' | '=' => '⁼' | '(' => '⁽' | ')' => '⁾'
  | 'n' => 'ⁿ' | 'i' => 'ⁱ'
  | _ => c

/-- `to_superscript` from math.rs:182-192. -/
def to_superscript (s : List Char) : List Char := s.map superChar

/-- Character table of `to_subscript` (math.rs:194-206). -/
def subChar (c : Char) : Char :=
  match c with
  | '0' => '₀' | '1' => '₁' | '2' => '₂' | '3' => '₃' | '4' => '₄'
  | '5' => '₅' | '6' => '₆' | '7' => '₇' | '8' => '₈' | '9' => '₉'
  | '+' => '₊' | '-' => '₋' | '=' => '₌' | '(' => '₍' | ')' => '₎'
  | 'a' => 'ₐ' | 'e' => 'ₑ' | 'o' => 'ₒ' | 'x' => 'ₓ'
  | 'h' => 'ₕ' | 'k' => 'ₖ' | 'l' => 'ₗ' | 'm' => 'ₘ'
  | 'n' => 'ₙ' | 'p' => 'ₚ' | 's' => 'ₛ' | 't' => 'ₜ'
  | _ => c

/-- `to_subscript` from math.rs:194-206. -/
def to_subscript (s : List Char) : List Char := s.map subChar

/-- The slice `chars[a..b]` of a char array (style_ext.rs uses `Vec<char>`
indexing, so these slices are by character, not byte). -/
def charSlice (chars : List Char) (a b : Nat) : List Char := (chars.drop a).take (b - a)

/-- `find_double` from style_ext.rs:91-100, scanning from absolute index
`start` for two adjacent occurrences of `c`. -/
def findDoubleFrom (c : Char) : List Char → Nat → Option Nat
  | c1 :: c2 :: rest, idx =>
    if c1 = c ∧ c2 = c then some idx else findDoubleFrom c (c2 :: rest) (idx + 1)
  | _, _ => none

/-- `find_double(chars, start, c)`. -/
def find_double (chars : List Char) (start : Nat) (c : Char) : Option Nat :=
  findDoubleFrom c (chars.drop start) start

/-- `find_single` from style_ext.rs:102-109. -/
def findSingleFrom (c : Char) : List Char → Nat → Option Nat
  | [], _ => none
  | x :: rest, idx => if x = c then some idx else findSingleFrom c rest (idx + 1)

/-- `find_single(chars, start, c)`. -/
def find_single (chars : List Char) (start : Nat) (c : Char) : Option Nat :=
  findSingleFrom c (chars.drop start) start

/-- The `if i > plain_start { push chars[plain_start..i] }` plain-run flush of
`style_extensions`. -/
def emitPlain (chars : List Char) (plainStart i : Nat) : List Span :=
  if plainStart < i then [charSlice chars plainStart i] else []

/-- The `==highlight==` arm of `style_extensions` (style_ext.rs:22-40):
`some (emitted spans, next i)` when it matches. -/
def seHighlight (chars : List Char) (len i plainStart : Nat) : Option (List Span × Nat) :=
  if i + 3 < len ∧ chars.getD i ' ' = '=' ∧ chars.getD (i + 1) ' ' = '=' then
    match find_double chars (i + 2) '=' with
    | some close =>
      if i + 2 < close then
        some (emitPlain chars plainStart i ++ [charSlice chars (i + 2) close], close + 2)
      else none
    | none => none
  else none

/-- The `^superscript^` arm of `style_extensions` (style_ext.rs:41-56). -/
def seSuper (chars : List Char) (len i plainStart : Nat) : Option (List Span × Nat) :=
  if chars.getD i ' ' = '^' ∧ i + 1 < len ∧ chars.getD (i + 1) ' ' ≠ '^' ∧
      chars.getD (i + 1) ' ' ≠ ' ' then
    match find_single chars (i + 1) '^' with
    | some close =>
      if i + 1 < close ∧ ¬ (charSlice chars (i + 1) close).contains ' ' then
        some (emitPlain chars plainStart i ++ [to_superscript (charSlice chars (i + 1) close)],
          close + 1)
      else none
    | none => none
  else none

/-- The `~subscript~` arm of `style_extensions` (style_ext.rs:57-75). -/
def seSub (chars : List Char) (len i plainStart : Nat) : Option (List Span × Nat) :=
  if chars.getD i ' ' = '~' ∧ i + 1 < len ∧ chars.getD (i + 1) ' ' ≠ '~' ∧
      chars.getD (i + 1) ' ' ≠ ' ' then
    match find_single chars (i + 1) '~' with
    | some close =>
      if i + 1 < close ∧ ¬ (charSlice chars (i + 1) close).contains ' ' ∧
          (len ≤ close + 1 ∨ chars.getD (close + 1) ' ' ≠ '~') then
        some (emitPlain chars plainStart i ++ [to_subscript (charSlice chars (i + 1) close)],
          close + 1)
      else none
    | none => none
  else none

/-- Scan loop of `style_extensions` (style_ext.rs:21-82).  `fuel` only bounds
the recursion: `i` strictly increases every iteration, so the wrapper's
`len + 1` can never run out. -/
def styleExtGo (chars : List Char) (len : Nat) : Nat → Nat → Nat → List Span
  | 0, _, _ => []
  | fuel + 1, i, plainStart =>
    if i < len then
      match seHighlight chars len i plainStart with
      | some (spans, iNext) => spans ++ styleExtGo chars len fuel iNext iNext
      | none =>
        match seSuper chars len i plainStart with
        | some (spans, iNext) => spans ++ styleExtGo chars len fuel iNext iNext
        | none =>
          match seSub chars len i plainStart with
          | some (spans, iNext) => spans ++ styleExtGo chars len fuel iNext iNext
          | none => styleExtGo chars len fuel (i + 1) plainStart
    else if plainStart < len then [charSlice chars plainStart len] else []

/-- `style_extensions` from style_ext.rs:14-89 (content of the emitted spans;
styles do not affect content). -/
def style_extensions (text : List Char) : List Span :=
  let spans := styleExtGo text text.length (text.length + 1) 0 0
  if spans.isEmpty then [text] else spans

/-- Repeat a string `n` times (Rust `str::repeat`). -/
def repeatL (s : List Char) (n : Nat) : List Char := (List.replicate n s).flatten

/-- The blockquote prefix `"│ "`. -/
def bqMark : List Char := "│ ".toList

/-- The pulldown-cmark events the renderer's heading fragment consumes. -/
inductive MdEvent where
  | startHeading (level : Nat)
  | endHeading (level : Nat)
  | text (s : List Char)
deriving DecidableEq

/-- The renderer's event-loop state restricted to the heading/text fragment:
emitted lines, the pending span buffer and the blockquote depth (no code
block, table or list state is active for these events). -/
structure RState where
  lines : List RLine
  currentSpans : List Span
  blockquoteDepth : Nat

/-- `flush_line` from renderer.rs:679-683. -/
def flush_line (st : RState) : RState :=
  if st.currentSpans.isEmpty then st
  else { st with lines := st.lines ++ [st.currentSpans], currentSpans := [] }

/-- `push_blank_line` from renderer.rs:740-749. -/
def push_blank_line (lines : List RLine) (bqDepth : Nat) : List RLine :=
  if 0 < bqDepth then lines ++ [[repeatL bqMark bqDepth]] else lines ++ [[[]]]

/-- `push_bq_prefix` from renderer.rs:730-737. -/
def push_bq_prefix (spans : List Span) (depth : Nat) : List Span :=
  if 0 < depth ∧ spans.isEmpty then spans ++ [repeatL bqMark depth] else spans

/-- The `prev_blank` test at renderer.rs:78. -/
def prevBlank (lines : List RLine) : Bool :=
  match lines.getLast? with
  | none => true
  | some l => l.isEmpty || l.all fun s => (trimL s).isEmpty || trimL s = "│".toList

/-- The per-chunk loop of the renderer's `Event::Text` arm when `word_wrap`
split the run (renderer.rs:404-411). -/
def textChunksGo (depth : Nat) : List (List Char) → List RLine → List Span →
    List RLine × List Span
  | [], lines, spans => (lines, spans)
  | [chunk], lines, spans => (lines, spans ++ style_extensions chunk)
  | chunk :: rest, lines, spans =>
    let spans1 := spans ++ style_extensions chunk
    let lines1 := if spans1.isEmpty then lines else lines ++ [spans1]
    textChunksGo depth rest lines1 ( push_bq_prefix [] depth)

/-- One event of the renderer loop (renderer.rs:70-497), restricted to the
heading/text fragment: `Tag::Heading` (renderer.rs:73-94), `TagEnd::Heading`
(renderer.rs:199-225) and `Event::Text` outside code blocks and tables
(renderer.rs:391-412). -/
def stepEvent (width : Nat) (st : RState) (ev : MdEvent) : RState :=
  match ev with
  | .startHeading level =>
    let st1 := flush_line st
    let pb := prevBlank st1.lines
    let lines1 :=
      if level ≤ 1 then
        push_blank_line (if pb then st1.lines else push_blank_line st1.lines st1.blockquoteDepth)
          st1.blockquoteDepth
      else if level = 2 ∧ pb = false then push_blank_line st1.lines st1.blockquoteDepth
      else st1.lines
    let spans1 := push_bq_prefix st1.currentSpans st1.blockquoteDepth
    { st1 with
      lines := lines1
      currentSpans := spans1 ++ [List.replicate level '#' ++ [' ']] }
  | .endHeading level =>
    let st1 := flush_line st
    let bqW := st1.blockquoteDepth * 2
    let bqSpans : List Span :=
      if 0 < st1.blockquoteDepth then [repeatL bqMark st1.blockquoteDepth] else []
    let lines1 :=
      if level = 1 then st1.lines ++ [bqSpans ++ [List.replicate (width - bqW) '━']]
      else if level = 2 then st1.lines ++ [bqSpans ++ [List.replicate (width - bqW) '─']]
      else st1.lines
    { st1 with lines := push_blank_line lines1 st1.blockquoteDepth }
  | .text s =>
    let spans0 := push_bq_prefix st.currentSpans st.blockquoteDepth
    let wrapped := word_wrap s width spans0
    if wrapped.length ≤ 1 then { st with currentSpans := spans0 ++ style_extensions s }
    else
      let r := textChunksGo st.blockquoteDepth wrapped st.lines spans0
      { st with lines := r.1, currentSpans := r.2 }

/-- The renderer's event loop over a whole event list, flushing the span
buffer at the end (renderer.rs:494-497). -/
def render_markdown_events (events : List MdEvent) (width : Nat) : List RLine :=
  (flush_line (events.foldl (stepEvent width) ⟨[], [], 0⟩)).lines

/-- The pulldown-cmark event stream for the source `"# Hello"` (an external
parser dependency: a level-1 heading containing the text run `Hello`). -/
def hashHelloEvents : List MdEvent :=
  [.startHeading 1, .text ("Hello".toList), .endHeading 1]

/-- The rendered lines of `layout("# Hello", 80)`. -/
def hashHelloLines : List RLine := render_markdown_events hashHelloEvents 80

/-- The concatenated span text of line `i`. -/
def lineTextAt (ls : List RLine) (i : Nat) : List Char := (ls.getD i []).flatten

/-- Concrete input for C2: four two-byte characters. -/
def c2Input : List Char := "ääää".toList

/-- Concrete input for C4: a single fitting line with a trailing newline. -/
def c4Input : List Char := "a\n".toList

/-- Concrete input for the C4 witness. -/
def c4FitInput : List Char := "ok then".toList

/-- Concrete input for C5: two space-separated words, the first exactly as
long as the wrap width 3. -/
def c5Input : List Char := "abc de".toList

/-- The output of `hard_wrap` on `c5Input` at width 3. -/
def c5Out : List Char := "abc\n de".toList

/-- A word of plain prose: non-empty, with every character a single-byte
non-whitespace character other than `'|'`. -/
def proseWord (w : List Char) : Prop :=
  w ≠ [] ∧ ∀ c ∈ w, utf8Size c = 1 ∧ isRustWhitespace c = false ∧ c ≠ '|'

/-- Concrete words for the C5 witness. -/
def c5wWords : List (List Char) := ["wrap".toList, "these".toList, "tiny".toList, "words".toList]

/-- Specification reading of the leading-cell strip: drop the leading cell
only when it is literally empty. -/
def specInner1 (line : List Char) : List (List Char) :=
  match sepCells line with
  | [] :: rest => rest
  | cells => cells

/-- Specification reading of separator-row cell stripping: drop an optional
leading cell and an optional trailing cell that are literally empty. -/
def innerCellsSpec (line : List Char) : List (List Char) :=
  match (specInner1 line).getLast? with
  | some [] => (specInner1 line).dropLast
  | _ => specInner1 line

/-- Specification of separator-row detection, following the claim's words: the
line contains `'|'` and, after stripping an optional empty leading cell and an
optional empty trailing cell, the remaining cell list is non-empty and every
remaining cell is non-empty after trimming and (trimmed) consists only of
`'-'`, `':'` and space. -/
def separator_row_spec (line : List Char) : Prop :=
  line.contains '|' = true ∧
    innerCellsSpec line ≠ [] ∧
      ∀ cell ∈ innerCellsSpec line,
        trimL cell ≠ [] ∧ ∀ ch ∈ trimL cell, ch = '-' ∨ ch = ':' ∨ ch = ' '

instance (line : List Char) : Decidable (separator_row_spec line) := by
  unfold separator_row_spec
  infer_instance

/-! ## Preview image pipeline (src/components/preview.rs)

URLs, file paths and decoded images are opaque keys compared only for
equality, modelled as `Nat`.  The caches the claims speak about are modelled
(`file_cache`, `image_decode_cache`, `decoding_in_flight`, plus the multiset
of dispatched-but-undelivered decodes as `pending`); `resize_cache`,
`protocol_cache` and the drawing stages touch none of these fields and are
omitted.  The filesystem outcome of `resolve_image_path` is adversarial input
data carried on each reference, and a poll step delivers an adversarial list
of messages, each processed only if its path was actually dispatched. -/

/-- A rendered image reference: its URL, whether its placeholder intersects
the viewport (the skip test at preview.rs:171-175), and what
`resolve_image_path` would return for it at this moment. -/
structure ImgRef where
  url : Nat
  visible : Bool
  resolvesTo : Option Nat
deriving DecidableEq

/-- `DecodedImage` from preview.rs:21-27. -/
structure DecodedMsg where
  path : Nat
  image : Option Nat
  urlHint : Option Nat
deriving DecidableEq

/-- The cache-relevant fields of `PreviewState` (preview.rs:44-69). -/
structure PState where
  fileCache : List (Nat × Option Nat)
  imageDecodeCache : List (Nat × Option Nat)
  decodingInFlight : List Nat
  pending : List Nat
deriving DecidableEq

/-- Association-list lookup modelling `HashMap::get` (insertion shadows). -/
def lookupA {α : Type} : List (Nat × α) → Nat → Option α
  | [], _ => none
  | (k', v) :: rest, k => if k' = k then some v else lookupA rest k

/-- The initial `PreviewState::new()` (preview.rs:72-89): all caches empty. -/
def initPState : PState := ⟨[], [], [], []⟩

/-- The decode-dispatch step for a resolved path (preview.rs:190-210): if the
path is not in the decode cache and not in flight, mark it in flight and spawn
a background decode (append to `pending`); a path already decoded falls
through to the resize stage, which touches no modelled field. -/
def dispatchStep (s : PState) (filePath : Option Nat) : PState :=
  match filePath with
  | none => s
  | some path =>
    if (lookupA s.imageDecodeCache path).isNone then
      if path ∈ s.decodingInFlight then s
      else
        { s with
          decodingInFlight := path :: s.decodingInFlight
          pending := s.pending ++ [path] }
    else s

/-- One image reference of the render loop (preview.rs:169-261): skip if not
visible; consult `file_cache`, caching only successful resolutions
(preview.rs:177-188); then dispatch a decode when needed. -/
def processInfo (s : PState) (r : ImgRef) : PState :=
  if r.visible = false then s
  else
    match lookupA s.fileCache r.url with
    | some cached => dispatchStep s cached
    | none =>
      let s1 :=
        if r.resolvesTo.isSome then
          { s with fileCache := (r.url, r.resolvesTo) :: s.fileCache }
        else s
      dispatchStep s1 r.resolvesTo

/-- The image portion of `render` (preview.rs:140-336) over the references of
one frame. -/
def renderImages (s : PState) (refs : List ImgRef) : PState := refs.foldl processInfo s

/-- One drained message of `poll_decoded_images` (preview.rs:125-137): remove
the path from the in-flight set, store the decode result — success or failure
alike — in the decode cache, and pre-populate `file_cache` when the message
carries a URL hint.  A message whose path was never dispatched cannot sit in
the channel; such adversarial messages are ignored. -/
def pollMsg (s : PState) (m : DecodedMsg) : PState :=
  if m.path ∈ s.pending then
    { fileCache :=
        match m.urlHint with
        | some u => (u, some m.path) :: s.fileCache
        | none => s.fileCache
      imageDecodeCache := (m.path, m.image) :: s.imageDecodeCache
      decodingInFlight := s.decodingInFlight.erase m.path
      pending := s.pending.erase m.path }
  else s

/-- `poll_decoded_images` (preview.rs:125-137): drain a batch of delivered
decode results. -/
def poll_decoded_images (s : PState) (delivered : List DecodedMsg) : PState :=
  delivered.foldl pollMsg s

/-- An operation of the preview orchestrator: a frame render over some image
references, or a tick-time poll of delivered decode results. -/
inductive POp where
  | render (refs : List ImgRef)
  | poll (delivered : List DecodedMsg)
deriving DecidableEq

/-- Run a sequence of render and poll operations from the initial state. -/
def runOps (ops : List POp) : PState :=
  ops.foldl
    (fun s op =>
      match op with
      | .render refs => renderImages s refs
      | .poll d => poll_decoded_images s d)
    initPState

/-- The state invariant of the preview caches: no duplicate pending decodes,
no duplicate in-flight entries, every pending decode is marked in flight, and
the URL cache holds only successful resolutions. -/
def PInv (s : PState) : Prop :=
  s.pending.Nodup ∧ s.decodingInFlight.Nodup ∧
    (∀ p, p ∈ s.pending → p ∈ s.decodingInFlight) ∧
    (∀ u v, lookupA s.fileCache u = some v → v.isSome = true)

/-- Concrete operations for the C9/C10 witnesses. -/
def wOps : List POp := [.render [⟨0, true, some 5⟩]]

/-- Concrete image reference for the witnesses. -/
def wRef : ImgRef := ⟨0, true, some 5⟩

/-! ## Helper lemmas -/

theorem rtShrinkGo_eq_shrinkGo (total available : Nat) :
    ∀ (ws : List Nat) (used : Nat), rtShrinkGo total available ws used = shrinkGo total available ws used
  | [], _ => rfl
  | [_w], _ => rfl
  | _w :: _x :: _ws, used => by
    simp only [rtShrinkGo, shrinkGo]
    exact congrArg _ (rtShrinkGo_eq_shrinkGo total available _ _)

theorem rtExpandGo_eq_distGo (n total extra : Nat) (htotal : 0 < total) :
    ∀ (ws : List Nat) (d : Nat), rtExpandGo n total extra ws d = distGo total extra ws d
  | [], _ => rfl
  | [_w], _ => rfl
  | _w :: _x :: _ws, d => by
    simp only [rtExpandGo, distGo, if_pos htotal]
    exact congrArg _ (rtExpandGo_eq_distGo n total extra htotal _ _)

theorem sum_map_max3_pos {l : List Nat} (h : ¬ l.isEmpty) : 0 < (l.map (fun w => max w 3)).sum := by
  cases l with
  | nil => simp at h
  | cons a t =>
    simp only [List.map_cons, List.sum_cons]
    have : 3 ≤ max a 3 := le_max_right a 3
    omega

theorem mem_dropWhile_of_not {p : Char → Bool} {c : Char} (hc : p c = false) :
    ∀ l : List Char, c ∈ l.dropWhile p ↔ c ∈ l := by
  intro l
  induction l with
  | nil => simp
  | cons a t ih =>
    by_cases hpa : p a = true
    · rw [List.dropWhile_cons_of_pos hpa, ih]
      constructor
      · exact fun h => List.mem_cons_of_mem a h
      · intro h
        rcases List.mem_cons.mp h with h | h
        · subst h; rw [hpa] at hc; cases hc
        · exact h
    · rw [List.dropWhile_cons_of_neg hpa]

theorem mem_trimEndL_of_not {c : Char} (hc : isRustWhitespace c = false) :
    ∀ s : List Char, c ∈ trimEndL s ↔ c ∈ s := by
  intro s
  induction s with
  | nil => simp [trimEndL]
  | cons a t ih =>
    simp only [trimEndL]
    cases htr : trimEndL t with
    | nil =>
      rw [htr] at ih
      by_cases hwa : isRustWhitespace a = true
      · simp only [if_pos hwa]
        constructor
        · intro h; cases h
        · intro h
          rcases List.mem_cons.mp h with h | h
          · subst h; rw [hwa] at hc; cases hc
          · exact absurd (ih.mpr h) (by simp)
      · simp only [if_neg hwa]
        constructor
        · intro h
          rcases List.mem_cons.mp h with h | h
          · rw [h]; exact List.mem_cons_self a t
          · cases h
        · intro h
          rcases List.mem_cons.mp h with h | h
          · rw [h]; exact List.mem_cons_self a []
          · exact absurd (ih.mpr h) (by simp)
    | cons r rs =>
      rw [htr] at ih
      simp only [List.mem_cons, ih]

theorem mem_trimL_of_not {c : Char} (hc : isRustWhitespace c = false) (s : List Char) :
    c ∈ trimL s ↔ c ∈ s := by
  unfold trimL trimStartL
  rw [mem_trimEndL_of_not hc, mem_dropWhile_of_not hc]

theorem trimEndL_eq_nil_iff : ∀ s : List Char, trimEndL s = [] ↔ s.all isRustWhitespace = true := by
  intro s
  induction s with
  | nil => simp [trimEndL]
  | cons a t ih =>
    simp only [trimEndL, List.all_cons, Bool.and_eq_true]
    cases htr : trimEndL t with
    | nil =>
      rw [htr] at ih
      by_cases hwa : isRustWhitespace a = true
      · simp [hwa, ih.mp rfl]
      · simp [hwa]
    | cons r rs =>
      rw [htr] at ih
      constructor
      · intro h; cases h
      · intro ⟨_, hall⟩
        exact absurd (ih.mpr hall) (by simp)

theorem all_dropWhile_self {p : Char → Bool} :
    ∀ l : List Char, (l.dropWhile p).all p = true ↔ l.all p = true := by
  intro l
  induction l with
  | nil => simp
  | cons a t ih =>
    by_cases hpa : p a = true
    · rw [List.dropWhile_cons_of_pos hpa]; simp [hpa, ih]
    · rw [List.dropWhile_cons_of_neg hpa]

theorem trimL_eq_nil_iff (s : List Char) : trimL s = [] ↔ s.all isRustWhitespace = true := by
  unfold trimL trimStartL
  rw [trimEndL_eq_nil_iff, all_dropWhile_self]

theorem trimL_ne_nil_of_mem {c : Char} {s : List Char} (hmem : c ∈ s)
    (hc : isRustWhitespace c = false) : trimL s ≠ [] := by
  intro h
  have := (trimL_eq_nil_iff s).mp h
  rw [List.all_eq_true] at this
  rw [this c hmem] at hc
  cases hc

theorem splitOnC_ne_nil (sep : Char) : ∀ t : List Char, splitOnC sep t ≠ [] := by
  intro t
  cases t with
  | nil => simp [splitOnC]
  | cons c cs =>
    simp only [splitOnC]
    by_cases h : c = sep
    · simp [h]
    · simp only [if_neg h]
      cases splitOnC sep cs <;> simp

theorem splitOnC_singleton (sep : Char) :
    ∀ (t h : List Char), splitOnC sep t = [h] → h = t := by
  intro t
  induction t with
  | nil =>
    intro h hh
    simp only [splitOnC] at hh
    injection hh with h1 _
    exact h1.symm
  | cons c cs ih =>
    intro h hh
    simp only [splitOnC] at hh
    by_cases hc : c = sep
    · rw [if_pos hc] at hh
      cases hhh : splitOnC sep cs with
      | nil => exact absurd hhh (splitOnC_ne_nil sep cs)
      | cons x xs =>
        rw [hhh] at hh
        injection hh with _ h2
        cases h2
    · rw [if_neg hc] at hh
      cases hhh : splitOnC sep cs with
      | nil => exact absurd hhh (splitOnC_ne_nil sep cs)
      | cons x xs =>
        rw [hhh] at hh
        injection hh with h1 h2
        have hxs : xs = [] := h2
        have : x = cs := ih x (by rw [hhh, hxs])
        rw [← h1, this]

theorem splitOnC_head_nonempty (sep : Char) {t : List Char} {x : Char} {xs : List Char}
    {rest : List (List Char)} (h : splitOnC sep t = (x :: xs) :: rest) :
    ∃ t', t = x :: t' := by
  cases t with
  | nil => simp [splitOnC] at h
  | cons c cs =>
    simp only [splitOnC] at h
    by_cases hc : c = sep
    · rw [if_pos hc] at h; cases h
    · rw [if_neg hc] at h
      cases hhh : splitOnC sep cs with
      | nil => exact absurd hhh (splitOnC_ne_nil sep cs)
      | cons y ys =>
        rw [hhh] at h
        cases h
        exact ⟨cs, rfl⟩

theorem dropWhile_head_not {p : Char → Bool} :
    ∀ {l r : List Char} {a : Char}, l.dropWhile p = a :: r → p a = false := by
  intro l
  induction l with
  | nil => intro r a h; cases h
  | cons b t ih =>
    intro r a h
    by_cases hpb : p b = true
    · rw [List.dropWhile_cons_of_pos hpb] at h
      exact ih h
    · rw [List.dropWhile_cons_of_neg hpb] at h
      cases h
      simpa using hpb

theorem trimEndL_cons_head {a x : Char} {u r : List Char} (h : trimEndL (a :: u) = x :: r) :
    x = a := by
  simp only [trimEndL] at h
  cases htr : trimEndL u with
  | nil =>
    rw [htr] at h
    by_cases hwa : isRustWhitespace a = true
    · rw [if_pos hwa] at h; cases h
    · rw [if_neg hwa] at h; cases h; rfl
  | cons y ys =>
    rw [htr] at h
    cases h
    rfl

theorem trimL_head_not {s : List Char} {x : Char} {r : List Char} (h : trimL s = x :: r) :
    isRustWhitespace x = false := by
  unfold trimL trimStartL at h
  cases hu : s.dropWhile isRustWhitespace with
  | nil => rw [hu] at h; cases h
  | cons a u =>
    rw [hu] at h
    have hx : x = a := trimEndL_cons_head h
    rw [hx]
    exact dropWhile_head_not hu

theorem getLast?_mem {α : Type} : ∀ {l : List α} {a : α}, l.getLast? = some a → a ∈ l := by
  intro l
  induction l with
  | nil => intro a h; cases h
  | cons b t ih =>
    intro a h
    cases t with
    | nil =>
      simp only [List.getLast?_singleton, Option.some.injEq] at h
      rw [h]
      exact List.mem_cons_self a []
    | cons c u =>
      rw [List.getLast?_cons_cons] at h
      exact List.mem_cons_of_mem b (ih h)

theorem trimEndL_getLast?_not :
    ∀ (s : List Char) {x : Char}, (trimEndL s).getLast? = some x → isRustWhitespace x = false := by
  intro s
  induction s with
  | nil => intro x h; cases h
  | cons a t ih =>
    intro x h
    simp only [trimEndL] at h
    cases htr : trimEndL t with
    | nil =>
      rw [htr] at h
      by_cases hwa : isRustWhitespace a = true
      · rw [if_pos hwa] at h; cases h
      · rw [if_neg hwa] at h
        simp only [List.getLast?_singleton, Option.some.injEq] at h
        rw [← h]
        simpa using hwa
    | cons y ys =>
      rw [htr] at h
      rw [List.getLast?_cons_cons] at h
      rw [← htr] at h
      exact ih h

theorem trimL_getLast?_not (s : List Char) {x : Char} (h : (trimL s).getLast? = some x) :
    isRustWhitespace x = false := by
  unfold trimL at h
  exact trimEndL_getLast?_not _ h

theorem splitOnC_getLast_nonempty (sep : Char) :
    ∀ (t : List Char), (∀ x, t.getLast? = some x → isRustWhitespace x = false) →
      ∀ cell, (splitOnC sep t).getLast? = some cell → cell ≠ [] → trimL cell ≠ [] := by
  intro t
  induction t with
  | nil =>
    intro _ cell hcell hne
    simp only [splitOnC, List.getLast?_singleton, Option.some.injEq] at hcell
    exact absurd hcell.symm hne
  | cons c cs ih =>
    intro hlast cell hcell hne
    simp only [splitOnC] at hcell
    by_cases hc : c = sep
    · rw [if_pos hc] at hcell
      cases hcs : cs with
      | nil =>
        subst hcs
        simp only [splitOnC, List.getLast?_cons_cons, List.getLast?_singleton,
          Option.some.injEq] at hcell
        exact absurd hcell.symm hne
      | cons d ds =>
        have hlast' : ∀ x, cs.getLast? = some x → isRustWhitespace x = false := by
          intro x hx
          apply hlast
          rw [hcs] at hx ⊢
          rw [List.getLast?_cons_cons]
          exact hx
        have hstep : (splitOnC sep cs).getLast? = some cell := by
          cases hsp : splitOnC sep cs with
          | nil => exact absurd hsp (splitOnC_ne_nil sep cs)
          | cons y ys =>
            rw [hsp, List.getLast?_cons_cons] at hcell
            exact hcell
        exact ih hlast' cell hstep hne
    · rw [if_neg hc] at hcell
      cases hhh : splitOnC sep cs with
      | nil => exact absurd hhh (splitOnC_ne_nil sep cs)
      | cons y ys =>
        rw [hhh] at hcell
        cases hys : ys with
        | nil =>
          subst hys
          simp only [List.getLast?_singleton, Option.some.injEq] at hcell
          have hy : y = cs := splitOnC_singleton sep cs y hhh
          rw [← hcell, hy]
          obtain ⟨z, hz⟩ : ∃ z, (c :: cs).getLast? = some z := by
            cases hgl : (c :: cs).getLast? with
            | none => simp at hgl
            | some z => exact ⟨z, rfl⟩
          exact trimL_ne_nil_of_mem (getLast?_mem hz) (hlast z hz)
        | cons z zs =>
          subst hys
          have hcs_ne : cs ≠ [] := by
            intro hcsnil
            subst hcsnil
            simp only [splitOnC] at hhh
            cases hhh
          have hlast' : ∀ x, cs.getLast? = some x → isRustWhitespace x = false := by
            intro x hx
            apply hlast
            cases hcs2 : cs with
            | nil => exact absurd hcs2 hcs_ne
            | cons d ds =>
              rw [hcs2] at hx
              rw [List.getLast?_cons_cons]
              exact hx
          have hstep : (splitOnC sep cs).getLast? = some cell := by
            rw [hhh, List.getLast?_cons_cons]
            rw [List.getLast?_cons_cons] at hcell
            exact hcell
          exact ih hlast' cell hstep hne

theorem trimL_cons_ne_nil {x : Char} {xs : List Char} (hx : isRustWhitespace x = false) :
    trimL (x :: xs) ≠ [] := by
  intro hnil
  have := (trimL_eq_nil_iff _).mp hnil
  simp only [List.all_cons, Bool.and_eq_true] at this
  rw [this.1] at hx
  cases hx

theorem sepInner1_eq_specInner1 (line : List Char) : sepInner1 line = specInner1 line := by
  unfold sepInner1 specInner1
  cases hcs : sepCells line with
  | nil => rfl
  | cons c rest =>
    cases c with
    | nil => simp [trimL, trimStartL, trimEndL]
    | cons x xs =>
      unfold sepCells at hcs
      obtain ⟨t', ht'⟩ := splitOnC_head_nonempty '|' hcs
      have hnws : isRustWhitespace x = false := trimL_head_not ht'
      have hne : trimL (x :: xs) ≠ [] := trimL_cons_ne_nil hnws
      have hcond : ¬ ((trimL (x :: xs)).isEmpty = true) := by
        rw [List.isEmpty_iff]; exact hne
      show (if (trimL (x :: xs)).isEmpty = true then rest else (x :: xs) :: rest) = (x :: xs) :: rest
      rw [if_neg hcond]

theorem sepInner2_eq_innerCellsSpec (line : List Char) :
    sepInner2 line = innerCellsSpec line := by
  unfold sepInner2 innerCellsSpec
  rw [sepInner1_eq_specInner1]
  cases hgl : (specInner1 line).getLast? with
  | none => rfl
  | some lastCell =>
    cases lastCell with
    | nil => simp [trimL, trimStartL, trimEndL]
    | cons x xs =>
      have hcells_last : (sepCells line).getLast? = some (x :: xs) := by
        unfold specInner1 at hgl
        cases hcs : sepCells line with
        | nil => rw [hcs] at hgl; cases hgl
        | cons c rest =>
          rw [hcs] at hgl
          cases c with
          | nil =>
            simp only at hgl
            cases rest with
            | nil => cases hgl
            | cons r rs =>
              rw [List.getLast?_cons_cons]
              exact hgl
          | cons y ys => exact hgl
      have hne : trimL (x :: xs) ≠ [] := by
        refine splitOnC_getLast_nonempty '|' (trimL line) ?_ (x :: xs) hcells_last (by simp)
        intro z hz
        exact trimL_getLast?_not line hz
      have hcond : ¬ ((trimL (x :: xs)).isEmpty = true) := by
        rw [List.isEmpty_iff]; exact hne
      show (if (trimL (x :: xs)).isEmpty = true then (specInner1 line).dropLast
          else specInner1 line) = specInner1 line
      rw [if_neg hcond]

theorem findCloseIdx_spec :
    ∀ (ls : List (List Char)) (j e : Nat) (rest : List (List Char)),
      findCloseIdx j ls = some (e, rest) →
        j ≤ e ∧ e - j < ls.length ∧ isBareClose (ls.getD (e - j) []) = true ∧
          rest = ls.drop (e - j + 1) := by
  intro ls
  induction ls with
  | nil => intro j e rest h; cases h
  | cons l ls' ih =>
    intro j e rest h
    simp only [findCloseIdx] at h
    by_cases hb : isBareClose l = true
    · rw [if_pos hb] at h
      injection h with h'
      injection h' with h1 h2
      subst h1; subst h2
      refine ⟨Nat.le_refl j, by simp, ?_, by simp⟩
      simpa using hb
    · rw [if_neg hb] at h
      obtain ⟨hje, hlt, hbare, hrest⟩ := ih (j + 1) e rest h
      have hej : 1 ≤ e - j := by omega
      refine ⟨by omega, by simp; omega, ?_, ?_⟩
      · have : e - j = (e - (j + 1)) + 1 := by omega
        rw [this]
        simpa using hbare
      · have : e - j + 1 = (e - (j + 1) + 1) + 1 := by omega
        rw [this]
        simpa using hrest

theorem findCloseIdx_rest_len :
    ∀ (ls : List (List Char)) (j e : Nat) (rest : List (List Char)),
      findCloseIdx j ls = some (e, rest) → rest.length ≤ ls.length := by
  intro ls j e rest h
  obtain ⟨_, _, _, hrest⟩ := findCloseIdx_spec ls j e rest h
  rw [hrest]
  simp

theorem openGo_true_eq_findClose :
    ∀ (ls : List (List Char)) (j : Nat),
      openGo j true ls =
        match findCloseIdx j ls with
        | some (e, rest) => openGo (e + 1) false rest
        | none => [] := by
  intro ls
  induction ls with
  | nil => intro j; rfl
  | cons l ls' ih =>
    intro j
    simp only [openGo, findCloseIdx]
    by_cases hb : isBareClose l = true
    · rw [if_pos hb, if_pos hb]
    · rw [if_neg hb, if_neg hb]
      exact ih (j + 1)

theorem regionsGo_map_start :
    ∀ (fuel : Nat) (total i : Nat) (ls : List (List Char)), ls.length < fuel →
      (regionsGo total fuel i ls).map (·.start_line) = openGo i false ls := by
  intro fuel
  induction fuel with
  | zero => intro total i ls h; omega
  | succ fuel ih =>
    intro total i ls h
    cases ls with
    | nil => rfl
    | cons l ls' =>
      simp only [regionsGo, openGo]
      by_cases hf : isFenceStart l = true
      · rw [if_pos hf, if_pos hf]
        cases hfc : findCloseIdx (i + 1) ls' with
        | some er =>
          obtain ⟨e, rest⟩ := er
          have hlen : rest.length ≤ ls'.length := findCloseIdx_rest_len ls' (i + 1) e rest hfc
          simp only [List.map_cons]
          rw [openGo_true_eq_findClose ls' (i + 1), hfc]
          rw [ih total (e + 1) rest (by simp at h; omega)]
        | none =>
          simp only [List.map_cons, List.map_nil]
          rw [openGo_true_eq_findClose ls' (i + 1), hfc]
      · rw [if_neg hf, if_neg hf]
        exact ih total (i + 1) ls' (by simp at h; omega)

theorem openGo_ge : ∀ (ls : List (List Char)) (i : Nat) (b : Bool),
    ∀ s ∈ openGo i b ls, i ≤ s := by
  intro ls
  induction ls with
  | nil => intro i b s hs; simp [openGo] at hs
  | cons l ls' ih =>
    intro i b s hs
    cases b with
    | false =>
      simp only [openGo] at hs
      by_cases hf : isFenceStart l = true
      · rw [if_pos hf] at hs
        rcases List.mem_cons.mp hs with h | h
        · omega
        · have := ih (i + 1) true s h; omega
      · rw [if_neg hf] at hs
        have := ih (i + 1) false s hs; omega
    | true =>
      simp only [openGo] at hs
      by_cases hb : isBareClose l = true
      · rw [if_pos hb] at hs
        have := ih (i + 1) false s hs; omega
      · rw [if_neg hb] at hs
        have := ih (i + 1) true s hs; omega

theorem openGo_chain : ∀ (ls : List (List Char)) (i : Nat) (b : Bool),
    List.Chain' (· < ·) (openGo i b ls) := by
  intro ls
  induction ls with
  | nil => intro i b; simp [openGo]
  | cons l ls' ih =>
    intro i b
    cases b with
    | false =>
      simp only [openGo]
      by_cases hf : isFenceStart l = true
      · rw [if_pos hf]
        refine List.chain'_cons'.mpr ⟨?_, ih (i + 1) true⟩
        intro y hy
        have := openGo_ge ls' (i + 1) true y (List.mem_of_mem_head? hy)
        omega
      · rw [if_neg hf]
        exact ih (i + 1) false
    | true =>
      simp only [openGo]
      by_cases hb : isBareClose l = true
      · rw [if_pos hb]; exact ih (i + 1) false
      · rw [if_neg hb]; exact ih (i + 1) true

theorem getD_drop {α : Type} (d : α) :
    ∀ (l : List α) (n m : Nat), (l.drop n).getD m d = l.getD (n + m) d := by
  intro l
  induction l with
  | nil => intro n m; simp
  | cons a t ih =>
    intro n m
    cases n with
    | zero => simp
    | succ n' =>
      simp only [List.drop_succ_cons]
      rw [ih n' m]
      have h1 : n' + 1 + m = (n' + m) + 1 := by omega
      rw [h1, List.getD_cons_succ]

theorem drop_drop' {α : Type} (l : List α) (n m : Nat) :
    (l.drop n).drop m = l.drop (n + m) := by
  rw [List.drop_drop]

theorem regionsGo_unclosed (lines : List (List Char)) :
    ∀ (fuel i : Nat) (ls : List (List Char)), ls.length < fuel → ls = lines.drop i →
      ∀ r ∈ regionsGo lines.length fuel i ls,
        (∀ j < lines.length, r.start_line < j → isBareClose (lines.getD j []) = false) →
        r.end_line = lines.length - 1 := by
  intro fuel
  induction fuel with
  | zero => intro i ls h; omega
  | succ fuel ih =>
    intro i ls hlen hdrop r hr hj
    cases ls with
    | nil => cases hr
    | cons l ls' =>
      simp only [regionsGo] at hr
      have hls' : ls' = lines.drop (i + 1) := by
        have := congrArg (List.drop 1) hdrop
        simpa [drop_drop', Nat.add_comm 1 i] using this
      by_cases hf : isFenceStart l = true
      · rw [if_pos hf] at hr
        cases hfc : findCloseIdx (i + 1) ls' with
        | some er =>
          obtain ⟨e, rest⟩ := er
          rw [hfc] at hr
          rcases List.mem_cons.mp hr with hhead | htail
          · exfalso
            obtain ⟨hje, hlt, hbare, _⟩ := findCloseIdx_spec ls' (i + 1) e rest hfc
            have hlines_len : ls'.length = lines.length - (i + 1) := by
              rw [hls']; simp
            have hibound : i + 1 ≤ lines.length := by
              by_contra hc
              have : lines.drop (i + 1) = [] := List.drop_eq_nil_of_le (by omega)
              rw [← hls'] at this
              subst this
              simp at hlt
            have hgetd : isBareClose (lines.getD e []) = true := by
              have := hbare
              rw [hls', getD_drop] at this
              have harith : i + 1 + (e - (i + 1)) = e := by omega
              rwa [harith] at this
            have helt : e < lines.length := by omega
            have hstart : r.start_line = i := by rw [hhead]
            rw [hj e helt (by rw [hstart]; omega)] at hgetd
            cases hgetd
          · obtain ⟨_, _, _, hrest⟩ := findCloseIdx_spec ls' (i + 1) e rest hfc
            have hrest_drop : rest = lines.drop (e + 1) := by
              rw [hrest, hls', drop_drop']
              congr 1
              obtain ⟨hje, _, _, _⟩ := findCloseIdx_spec ls' (i + 1) e rest hfc
              omega
            have hrest_len : rest.length ≤ ls'.length := findCloseIdx_rest_len ls' (i + 1) e rest hfc
            exact ih (e + 1) rest (by simp at hlen; omega) hrest_drop r htail hj
        | none =>
          rw [hfc] at hr
          rcases List.mem_cons.mp hr with hhead | htail
          · rw [hhead]
          · cases htail
      · rw [if_neg hf] at hr
        exact ih (i + 1) ls' (by simp at hlen; omega) hls' r hr hj

theorem pinv_init : PInv initPState := by
  refine ⟨List.nodup_nil, List.nodup_nil, ?_, ?_⟩
  · intro p hp; simp [initPState] at hp
  · intro u v h; simp [initPState, lookupA] at h

theorem dispatchStep_fileCache (s : PState) (c : Option Nat) :
    (dispatchStep s c).fileCache = s.fileCache := by
  cases c with
  | none => rfl
  | some path =>
    by_cases hdec : (lookupA s.imageDecodeCache path).isNone = true
    · by_cases hmem : path ∈ s.decodingInFlight
      · simp [dispatchStep, hdec, hmem]
      · simp [dispatchStep, hdec, hmem]
    · simp [dispatchStep, hdec]

theorem dispatchStep_decodeCache (s : PState) (c : Option Nat) :
    (dispatchStep s c).imageDecodeCache = s.imageDecodeCache := by
  cases c with
  | none => rfl
  | some path =>
    by_cases hdec : (lookupA s.imageDecodeCache path).isNone = true
    · by_cases hmem : path ∈ s.decodingInFlight
      · simp [dispatchStep, hdec, hmem]
      · simp [dispatchStep, hdec, hmem]
    · simp [dispatchStep, hdec]

theorem pinv_dispatchStep {s : PState} (h : PInv s) (c : Option Nat) :
    PInv (dispatchStep s c) := by
  obtain ⟨h1, h2, h3, h4⟩ := h
  cases c with
  | none => exact ⟨h1, h2, h3, h4⟩
  | some path =>
    by_cases hdec : (lookupA s.imageDecodeCache path).isNone = true
    · by_cases hmem : path ∈ s.decodingInFlight
      · simp only [dispatchStep, if_pos hdec, if_pos hmem]
        exact ⟨h1, h2, h3, h4⟩
      · simp only [dispatchStep, if_pos hdec, if_neg hmem]
        have hnp : path ∉ s.pending := fun hp => hmem (h3 path hp)
        refine ⟨?_, List.nodup_cons.mpr ⟨hmem, h2⟩, ?_, h4⟩
        · rw [List.nodup_append]
          refine ⟨h1, List.nodup_singleton path, ?_⟩
          simp only [List.disjoint_singleton]
          exact hnp
        · intro p hp
          rcases List.mem_append.mp hp with hp | hp
          · exact List.mem_cons_of_mem _ (h3 p hp)
          · simp only [List.mem_singleton] at hp
            rw [hp]
            exact List.mem_cons_self path s.decodingInFlight
    · simp only [dispatchStep, if_neg hdec]
      exact ⟨h1, h2, h3, h4⟩

theorem pinv_processInfo {s : PState} (h : PInv s) (r : ImgRef) : PInv (processInfo s r) := by
  unfold processInfo
  by_cases hv : r.visible = false
  · rw [if_pos hv]; exact h
  · rw [if_neg hv]
    cases hlk : lookupA s.fileCache r.url with
    | some cached => exact pinv_dispatchStep h cached
    | none =>
      apply pinv_dispatchStep
      by_cases hres : r.resolvesTo.isSome = true
      · rw [if_pos hres]
        obtain ⟨h1, h2, h3, h4⟩ := h
        refine ⟨h1, h2, h3, ?_⟩
        intro u v huv
        by_cases hu : r.url = u
        · rw [lookupA, if_pos hu] at huv
          injection huv with huv
          rw [← huv]
          exact hres
        · rw [lookupA, if_neg hu] at huv
          exact h4 u v huv
      · rw [if_neg hres]; exact h

theorem pinv_pollMsg {s : PState} (h : PInv s) (m : DecodedMsg) : PInv (pollMsg s m) := by
  obtain ⟨h1, h2, h3, h4⟩ := h
  unfold pollMsg
  by_cases hp : m.path ∈ s.pending
  · rw [if_pos hp]
    refine ⟨h1.erase _, h2.erase _, ?_, ?_⟩
    · intro p hpe
      have hmem : p ∈ s.pending := List.mem_of_mem_erase hpe
      have hne : p ≠ m.path := ((List.Nodup.mem_erase_iff h1).mp hpe).1
      exact (List.Nodup.mem_erase_iff h2).mpr ⟨hne, h3 p hmem⟩
    · intro u v huv
      cases hh : m.urlHint with
      | none =>
        rw [hh] at huv
        exact h4 u v huv
      | some u' =>
        rw [hh] at huv
        by_cases hu : u' = u
        · rw [lookupA, if_pos hu] at huv
          injection huv with huv
          rw [← huv]
          rfl
        · rw [lookupA, if_neg hu] at huv
          exact h4 u v huv
  · rw [if_neg hp]; exact ⟨h1, h2, h3, h4⟩

theorem pinv_renderImages {s : PState} (h : PInv s) :
    ∀ refs : List ImgRef, PInv (renderImages s refs) := by
  intro refs
  induction refs generalizing s with
  | nil => exact h
  | cons r rest ih => exact ih (pinv_processInfo h r)

theorem pinv_pollBatch {s : PState} (h : PInv s) :
    ∀ delivered : List DecodedMsg, PInv (poll_decoded_images s delivered) := by
  intro delivered
  induction delivered generalizing s with
  | nil => exact h
  | cons m rest ih => exact ih (pinv_pollMsg h m)

theorem pinv_runOps (ops : List POp) : PInv (runOps ops) := by
  have hgen : ∀ (l : List POp) (s : PState), PInv s →
      PInv (l.foldl
        (fun s op =>
          match op with
          | .render refs => renderImages s refs
          | .poll d => poll_decoded_images s d) s) := by
    intro l
    induction l with
    | nil => intro s hs; exact hs
    | cons op rest ih =>
      intro s hs
      cases op with
      | render refs => exact ih _ (pinv_renderImages hs refs)
      | poll d => exact ih _ (pinv_pollBatch hs d)
  exact hgen ops initPState pinv_init

theorem dispatchStep_idem (s : PState) (c : Option Nat) :
    dispatchStep (dispatchStep s c) c = dispatchStep s c := by
  cases c with
  | none => rfl
  | some path =>
    by_cases hdec : (lookupA s.imageDecodeCache path).isNone = true
    · by_cases hmem : path ∈ s.decodingInFlight
      · simp [dispatchStep, hdec, hmem]
      · simp [dispatchStep, hdec, hmem]
    · simp [dispatchStep, hdec]

theorem processInfo_idem (s : PState) (r : ImgRef) :
    processInfo (processInfo s r) r = processInfo s r := by
  by_cases hv : r.visible = false
  · simp [processInfo, hv]
  · cases hlk : lookupA s.fileCache r.url with
    | some cached =>
      have hfirst : processInfo s r = dispatchStep s cached := by
        unfold processInfo
        rw [if_neg hv, hlk]
      rw [hfirst]
      unfold processInfo
      rw [if_neg hv, dispatchStep_fileCache, hlk]
      exact dispatchStep_idem s cached
    | none =>
      by_cases hres : r.resolvesTo.isSome = true
      · have hfirst : processInfo s r =
            dispatchStep { s with fileCache := (r.url, r.resolvesTo) :: s.fileCache }
              r.resolvesTo := by
          unfold processInfo
          rw [if_neg hv, hlk, if_pos hres]
        rw [hfirst]
        unfold processInfo
        rw [if_neg hv, dispatchStep_fileCache]
        have hlk2 : lookupA ((r.url, r.resolvesTo) :: s.fileCache) r.url = some r.resolvesTo := by
          rw [lookupA, if_pos rfl]
        rw [hlk2]
        exact dispatchStep_idem _ r.resolvesTo
      · have hnone : r.resolvesTo = none := Option.not_isSome_iff_eq_none.mp (by simpa using hres)
        have hfirst : processInfo s r = s := by
          unfold processInfo
          rw [if_neg hv, hlk, if_neg hres, hnone]
          rfl
        rw [hfirst, hfirst]

theorem processInfo_decodeCache (s : PState) (r : ImgRef) :
    (processInfo s r).imageDecodeCache = s.imageDecodeCache := by
  unfold processInfo
  by_cases hv : r.visible = false
  · rw [if_pos hv]
  · rw [if_neg hv]
    cases hlk : lookupA s.fileCache r.url with
    | some cached => exact dispatchStep_decodeCache s cached
    | none =>
      by_cases hres : r.resolvesTo.isSome = true
      · rw [if_pos hres, dispatchStep_decodeCache]
      · rw [if_neg hres, dispatchStep_decodeCache]

theorem processInfo_pending_sub (s : PState) (r : ImgRef) (p : Nat) :
    p ∈ (processInfo s r).pending → p ∈ s.pending ∨ lookupA s.imageDecodeCache p = none := by
  intro hp
  unfold processInfo at hp
  by_cases hv : r.visible = false
  · rw [if_pos hv] at hp; exact Or.inl hp
  · rw [if_neg hv] at hp
    have hdisp : ∀ (s' : PState) (c : Option Nat),
        s'.pending = s.pending → s'.imageDecodeCache = s.imageDecodeCache →
        p ∈ (dispatchStep s' c).pending →
        p ∈ s.pending ∨ lookupA s.imageDecodeCache p = none := by
      intro s' c hpend hdec hmem
      cases c with
      | none =>
        simp only [dispatchStep] at hmem
        exact Or.inl (hpend ▸ hmem)
      | some path =>
        by_cases hdn : (lookupA s'.imageDecodeCache path).isNone = true
        · by_cases hif : path ∈ s'.decodingInFlight
          · simp only [dispatchStep, if_pos hdn, if_pos hif] at hmem
            exact Or.inl (hpend ▸ hmem)
          · simp only [dispatchStep, if_pos hdn, if_neg hif] at hmem
            rcases List.mem_append.mp hmem with hmem | hmem
            · exact Or.inl (hpend ▸ hmem)
            · simp only [List.mem_singleton] at hmem
              subst hmem
              right
              rw [← hdec]
              exact Option.isNone_iff_eq_none.mp hdn
        · simp only [dispatchStep, if_neg hdn] at hmem
          exact Or.inl (hpend ▸ hmem)
    cases hlk : lookupA s.fileCache r.url with
    | some cached =>
      rw [hlk] at hp
      exact hdisp s cached rfl rfl hp
    | none =>
      rw [hlk] at hp
      by_cases hres : r.resolvesTo.isSome = true
      · rw [if_pos hres] at hp
        exact hdisp { s with fileCache := (r.url, r.resolvesTo) :: s.fileCache }
          r.resolvesTo rfl rfl hp
      · rw [if_neg hres] at hp
        exact hdisp s r.resolvesTo rfl rfl hp

theorem renderImages_pending_sub (p : Nat) :
    ∀ (refs : List ImgRef) (s : PState), p ∈ (renderImages s refs).pending →
      p ∈ s.pending ∨ lookupA s.imageDecodeCache p = none := by
  intro refs
  induction refs with
  | nil => intro s hp; exact Or.inl hp
  | cons r rest ih =>
    intro s hp
    rcases ih (processInfo s r) hp with hp2 | hp2
    · exact processInfo_pending_sub s r p hp2
    · right; rwa [processInfo_decodeCache] at hp2

theorem poll_preserves_lookup (p : Nat) :
    ∀ (delivered : List DecodedMsg) (s : PState), (∀ m ∈ delivered, m.path ≠ p) →
      lookupA (poll_decoded_images s delivered).imageDecodeCache p =
        lookupA s.imageDecodeCache p := by
  intro delivered
  induction delivered with
  | nil => intro s _; rfl
  | cons m rest ih =>
    intro s hne
    have hm : m.path ≠ p := hne m (List.mem_cons_self m rest)
    have hrest : ∀ m' ∈ rest, m'.path ≠ p := fun m' hm' => hne m' (List.mem_cons_of_mem m hm')
    show lookupA (poll_decoded_images (pollMsg s m) rest).imageDecodeCache p = _
    rw [ih (pollMsg s m) hrest]
    unfold pollMsg
    by_cases hp : m.path ∈ s.pending
    · rw [if_pos hp]
      show lookupA ((m.path, m.image) :: s.imageDecodeCache) p = _
      rw [lookupA, if_neg hm]
    · rw [if_neg hp]

theorem poll_stores (p : Nat) (img hint : Option Nat) :
    ∀ (delivered : List DecodedMsg) (s : PState), (delivered.map DecodedMsg.path).Nodup →
      (⟨p, img, hint⟩ : DecodedMsg) ∈ delivered → p ∈ s.pending →
      lookupA (poll_decoded_images s delivered).imageDecodeCache p = some img := by
  intro delivered
  induction delivered with
  | nil => intro s _ hmem; cases hmem
  | cons m rest ih =>
    intro s hnd hmem hp
    simp only [List.map_cons, List.nodup_cons] at hnd
    rcases List.mem_cons.mp hmem with hm | hm
    · have hmp : m.path = p := by rw [← hm]
      have hrestne : ∀ m' ∈ rest, m'.path ≠ p := by
        intro m' hm' he
        apply hnd.1
        rw [hmp, ← he]
        exact List.mem_map_of_mem DecodedMsg.path hm'
      show lookupA (poll_decoded_images (pollMsg s m) rest).imageDecodeCache p = some img
      rw [poll_preserves_lookup p rest (pollMsg s m) hrestne]
      unfold pollMsg
      rw [hmp, if_pos hp]
      show lookupA ((p, m.image) :: s.imageDecodeCache) p = some img
      rw [lookupA, if_pos rfl, ← hm]
    · have hpmem : p ∈ rest.map DecodedMsg.path := List.mem_map_of_mem DecodedMsg.path hm
      have hmp : m.path ≠ p := fun he => hnd.1 (he ▸ hpmem)
      have hp2 : p ∈ (pollMsg s m).pending := by
        unfold pollMsg
        by_cases hq : m.path ∈ s.pending
        · rw [if_pos hq]
          show p ∈ s.pending.erase m.path
          exact (List.mem_erase_of_ne fun he => hmp he.symm).mpr hp
        · rw [if_neg hq]; exact hp
      exact ih (pollMsg s m) hnd.2 hm hp2

theorem processInfo_failed_resolution (s : PState) (r : ImgRef)
    (hres : r.resolvesTo = none) (hlk : lookupA s.fileCache r.url = none) :
    (processInfo s r).fileCache = s.fileCache := by
  unfold processInfo
  by_cases hv : r.visible = false
  · rw [if_pos hv]
  · rw [if_neg hv, hlk]
    simp [hres, dispatchStep]

theorem sLen_nil : sLen [] = 0 := rfl

theorem sLen_cons (c : Char) (t : List Char) : sLen (c :: t) = utf8Size c + sLen t := rfl

theorem sLen_allOne : ∀ {l : List Char}, (∀ c ∈ l, utf8Size c = 1) → sLen l = l.length := by
  intro l
  induction l with
  | nil => intro _; rfl
  | cons c t ih =>
    intro h
    rw [sLen_cons, h c (List.mem_cons_self c t), ih fun x hx => h x (List.mem_cons_of_mem c hx)]
    simp [Nat.add_comm]

theorem slicePre_allOne :
    ∀ {l : List Char}, (∀ c ∈ l, utf8Size c = 1) → ∀ {k}, k ≤ l.length →
      slicePre l k = some (l.take k) := by
  intro l
  induction l with
  | nil =>
    intro _ k hk
    simp only [List.length_nil, Nat.le_zero] at hk
    subst hk
    rfl
  | cons c t ih =>
    intro h k hk
    cases k with
    | zero => rfl
    | succ k' =>
      have hc : utf8Size c = 1 := h c (List.mem_cons_self c t)
      show slicePre (c :: t) (k' + 1) = some (c :: t.take k')
      rw [slicePre, if_pos (by omega)]
      have : k' + 1 - utf8Size c = k' := by omega
      rw [this, ih (fun x hx => h x (List.mem_cons_of_mem c hx)) (by simpa using hk)]
      rfl

theorem sliceSuf_allOne :
    ∀ {l : List Char}, (∀ c ∈ l, utf8Size c = 1) → ∀ {k}, k ≤ l.length →
      sliceSuf l k = some (l.drop k) := by
  intro l
  induction l with
  | nil =>
    intro _ k hk
    simp only [List.length_nil, Nat.le_zero] at hk
    subst hk
    rfl
  | cons c t ih =>
    intro h k hk
    cases k with
    | zero => rfl
    | succ k' =>
      have hc : utf8Size c = 1 := h c (List.mem_cons_self c t)
      show sliceSuf (c :: t) (k' + 1) = some (t.drop k')
      rw [sliceSuf, if_pos (by omega)]
      have : k' + 1 - utf8Size c = k' := by omega
      rw [this, ih (fun x hx => h x (List.mem_cons_of_mem c hx)) (by simpa using hk)]

theorem getD_mem {l : List Char} {p : Nat} (hp : p < l.length) (d : Char) : l.getD p d ∈ l := by
  rw [List.getD_eq_getElem l d hp]
  exact List.getElem_mem hp

theorem rfindSpace_mem :
    ∀ {l : List Char}, (∀ c ∈ l, utf8Size c = 1) → ∀ {p}, rfindSpace l = some p →
      p < l.length ∧ l.getD p 'A' = ' ' := by
  intro l
  induction l with
  | nil => intro _ p h; cases h
  | cons c t ih =>
    intro h p hp
    rw [rfindSpace] at hp
    cases hr : rfindSpace t with
    | some i =>
      rw [hr] at hp
      injection hp with hp
      have hc : utf8Size c = 1 := h c (List.mem_cons_self c t)
      obtain ⟨hi1, hi2⟩ := ih (fun x hx => h x (List.mem_cons_of_mem c hx)) hr
      constructor
      · simp only [List.length_cons]; omega
      · rw [← hp, hc]
        show (c :: t).getD (1 + i) 'A' = ' '
        rw [Nat.add_comm 1 i]
        simpa using hi2
    | none =>
      rw [hr] at hp
      by_cases hcs : c = ' '
      · rw [if_pos hcs] at hp
        injection hp with hp
        rw [← hp]
        exact ⟨by simp, by simpa using hcs⟩
      · rw [if_neg hcs] at hp; cases hp

theorem rfindSpace_isSome : ∀ {l : List Char}, ' ' ∈ l → (rfindSpace l).isSome = true := by
  intro l
  induction l with
  | nil => intro h; cases h
  | cons c t ih =>
    intro h
    rw [rfindSpace]
    cases hr : rfindSpace t with
    | some i => rfl
    | none =>
      rcases List.mem_cons.mp h with h | h
      · rw [if_pos h.symm]; rfl
      · rw [hr] at ih; cases ih h

theorem getD_take {l : List Char} {n m : Nat} (d : Char) (hm : m < n) :
    (l.take n).getD m d = l.getD m d := by
  by_cases hl : m < l.length
  · rw [List.getD_eq_getElem l d hl,
      List.getD_eq_getElem (l.take n) d (by simp [List.length_take]; omega)]
    simp
  · rw [List.getD_eq_default l d (by omega),
      List.getD_eq_default (l.take n) d (by simp [List.length_take]; omega)]

theorem getD_append_left {l r : List Char} {p : Nat} (d : Char) (hp : p < l.length) :
    (l ++ r).getD p d = l.getD p d := by
  rw [List.getD_eq_getElem l d hp,
    List.getD_eq_getElem (l ++ r) d (by simp; omega)]
  exact List.getElem_append_left hp

theorem getD_append_right (l r : List Char) (k : Nat) (d : Char) :
    (l ++ r).getD (l.length + k) d = r.getD k d := by
  by_cases hk : k < r.length
  · rw [List.getD_eq_getElem r d hk,
      List.getD_eq_getElem (l ++ r) d (by simp; omega)]
    rw [List.getElem_append_right (by omega)]
    congr 1
    omega
  · rw [List.getD_eq_default r d (by omega),
      List.getD_eq_default (l ++ r) d (by simp; omega)]

theorem take_append_ge (l r : List Char) (k : Nat) :
    (l ++ r).take (l.length + k) = l ++ r.take k := by
  induction l with
  | nil => simp
  | cons c t ih => simpa [List.take_cons, Nat.succ_add] using ih

theorem drop_append_ge (l r : List Char) (k : Nat) :
    (l ++ r).drop (l.length + k) = r.drop k := by
  induction l with
  | nil => simp
  | cons c t ih => simpa [Nat.succ_add] using ih

theorem joinSep_cons_ne (sep : Char) (w : List Char) {rest : List (List Char)} (h : rest ≠ []) :
    joinSep sep (w :: rest) = w ++ sep :: joinSep sep rest := by
  cases rest with
  | nil => exact absurd rfl h
  | cons x xs => rfl

theorem joinSep_append_ne (sep : Char) :
    ∀ {ws₁ ws₂ : List (List Char)}, ws₁ ≠ [] → ws₂ ≠ [] →
      joinSep sep (ws₁ ++ ws₂) = joinSep sep ws₁ ++ sep :: joinSep sep ws₂ := by
  intro ws₁
  induction ws₁ with
  | nil => intro ws₂ h _; exact absurd rfl h
  | cons w rest ih =>
    intro ws₂ _ h2
    cases hr : rest with
    | nil =>
      simp only [List.cons_append, List.nil_append]
      rw [joinSep_cons_ne sep w (by simp [h2])]
      rfl
    | cons x xs =>
      rw [List.cons_append, joinSep_cons_ne sep w (by simp),
        joinSep_cons_ne sep w (by simp [hr]), ← hr, ih (by simp [hr]) h2]
      simp

theorem mem_joinSep (sep : Char) :
    ∀ {ws : List (List Char)} {c : Char}, c ∈ joinSep sep ws → c = sep ∨ ∃ w ∈ ws, c ∈ w := by
  intro ws
  induction ws with
  | nil => intro c h; cases h
  | cons w rest ih =>
    intro c h
    cases hr : rest with
    | nil =>
      rw [hr] at h
      exact Or.inr ⟨w, List.mem_cons_self w _, h⟩
    | cons x xs =>
      rw [hr] at h
      rw [joinSep_cons_ne sep w (by simp)] at h
      rcases List.mem_append.mp h with h | h
      · exact Or.inr ⟨w, List.mem_cons_self w _, h⟩
      · rcases List.mem_cons.mp h with h | h
        · exact Or.inl h
        · rw [← hr] at h
          rcases ih h with h | ⟨w', hw', hc⟩
          · exact Or.inl h
          · exact Or.inr ⟨w', List.mem_cons_of_mem w (hr ▸ hw'), hc⟩

theorem joinSep_head (sep : Char) (c : Char) (w : List Char) (rest : List (List Char)) :
    ∃ t, joinSep sep ((c :: w) :: rest) = c :: t := by
  cases rest with
  | nil => exact ⟨w, rfl⟩
  | cons x xs => exact ⟨w ++ sep :: joinSep sep (x :: xs), rfl⟩

theorem joinSep_space_split :
    ∀ (ws : List (List Char)), (∀ w ∈ ws, w ≠ [] ∧ ∀ c ∈ w, c ≠ ' ') →
      ∀ p, p < (joinSep ' ' ws).length → (joinSep ' ' ws).getD p 'A' = ' ' →
      ∃ ws₁ ws₂, ws = ws₁ ++ ws₂ ∧ ws₁ ≠ [] ∧ ws₂ ≠ [] ∧
        p = (joinSep ' ' ws₁).length ∧
        (joinSep ' ' ws).take p = joinSep ' ' ws₁ ∧
        (joinSep ' ' ws).drop p = ' ' :: joinSep ' ' ws₂ := by
  intro ws
  induction ws with
  | nil => intro _ p hp _; simp [joinSep] at hp
  | cons w rest ih =>
    intro hgood p hp hsp
    cases hr : rest with
    | nil =>
      subst hr
      exfalso
      have hmem : (joinSep ' ' [w]).getD p 'A' ∈ joinSep ' ' [w] := getD_mem hp 'A'
      rw [hsp] at hmem
      exact (hgood w (List.mem_cons_self w [])).2 ' ' (by simpa [joinSep] using hmem) rfl
    | cons x xs =>
      subst hr
      have hjoin : joinSep ' ' (w :: x :: xs) = w ++ ' ' :: joinSep ' ' (x :: xs) :=
        joinSep_cons_ne ' ' w (by simp)
      rcases Nat.lt_trichotomy p w.length with hlt | heq | hgt
      · exfalso
        rw [hjoin, getD_append_left 'A' hlt] at hsp
        have hmem : w.getD p 'A' ∈ w := getD_mem hlt 'A'
        rw [hsp] at hmem
        exact (hgood w (List.mem_cons_self w _)).2 ' ' hmem rfl
      · refine ⟨[w], x :: xs, rfl, by simp, by simp, by simpa [joinSep] using heq, ?_, ?_⟩
        · rw [hjoin, heq, show w.length = w.length + 0 from (Nat.add_zero _).symm,
            take_append_ge]
          simp [joinSep]
        · rw [hjoin, heq, show w.length = w.length + 0 from (Nat.add_zero _).symm,
            drop_append_ge]
          simp
      · have hgood' : ∀ w' ∈ x :: xs, w' ≠ [] ∧ ∀ c ∈ w', c ≠ ' ' :=
          fun w' hw' => hgood w' (List.mem_cons_of_mem w hw')
        have hp' : p - w.length - 1 < (joinSep ' ' (x :: xs)).length := by
          rw [hjoin] at hp
          simp only [List.length_append, List.length_cons] at hp
          omega
        have hsp' : (joinSep ' ' (x :: xs)).getD (p - w.length - 1) 'A' = ' ' := by
          rw [hjoin] at hsp
          have harith : p = w.length + (1 + (p - w.length - 1)) := by omega
          rw [harith, getD_append_right] at hsp
          rw [Nat.add_comm 1 _] at hsp
          simpa using hsp
        obtain ⟨ws₁, ws₂, hsplit, hne1, hne2, hpos, htake, hdrop⟩ :=
          ih hgood' (p - w.length - 1) hp' hsp'
        refine ⟨w :: ws₁, ws₂, by rw [List.cons_append, ← hsplit], by simp, hne2, ?_, ?_, ?_⟩
        · rw [joinSep_cons_ne ' ' w hne1]
          simp only [List.length_append, List.length_cons]
          omega
        · rw [hjoin, joinSep_cons_ne ' ' w hne1]
          have harith : p = w.length + (1 + (p - w.length - 1)) := by omega
          rw [harith, take_append_ge, Nat.add_comm 1 _, List.take_succ_cons, htake]
        · rw [hjoin]
          have harith : p = w.length + (1 + (p - w.length - 1)) := by omega
          rw [harith, drop_append_ge, Nat.add_comm 1 _, List.drop_succ_cons, hdrop]

theorem splitIncNl_no_nl :
    ∀ {s : List Char}, s ≠ [] → '\n' ∉ s → splitIncNl s = [s] := by
  intro s
  induction s with
  | nil => intro h _; exact absurd rfl h
  | cons c cs ih =>
    intro _ hnl
    have hc : ¬ c = '\n' := fun h => hnl (by rw [h]; exact List.mem_cons_self _ _)
    rw [splitIncNl, if_neg hc]
    cases hcs : cs with
    | nil => subst hcs; rfl
    | cons d ds =>
      rw [← hcs, ih (by simp [hcs]) fun h => hnl (List.mem_cons_of_mem c h)]

theorem stripLineEnd_no_nl {s : List Char} (hnl : '\n' ∉ s) : stripLineEnd s = s := by
  unfold stripLineEnd
  split
  · next heq =>
    exfalso
    apply hnl
    rw [← List.mem_reverse, heq]
    exact List.mem_cons_self _ _
  · next heq =>
    exfalso
    apply hnl
    rw [← List.mem_reverse, heq]
    exact List.mem_cons_self _ _
  · rfl

theorem rustLines_single {s : List Char} (hne : s ≠ []) (hnl : '\n' ∉ s) :
    rustLines s = [s] := by
  unfold rustLines
  rw [splitIncNl_no_nl hne hnl]
  simp [stripLineEnd_no_nl hnl]

theorem splitIncNl_append_nl {sg : List Char} (hnl : '\n' ∉ sg) (u : List Char) :
    splitIncNl (sg ++ '\n' :: u) = (sg ++ ['\n']) :: splitIncNl u := by
  induction sg with
  | nil => simp [splitIncNl]
  | cons c cs ih =>
    have hc : ¬ c = '\n' := fun h => hnl (by rw [h]; exact List.mem_cons_self _ _)
    have ih' := ih fun h => hnl (List.mem_cons_of_mem c h)
    rw [List.cons_append, splitIncNl, if_neg hc, ih']
    rfl

theorem stripLineEnd_append_nl {sg : List Char} (hr : '\r' ∉ sg) :
    stripLineEnd (sg ++ ['\n']) = sg := by
  unfold stripLineEnd
  rw [List.reverse_append]
  simp only [List.reverse_singleton, List.singleton_append]
  cases hsg : sg.reverse with
  | nil =>
    rw [show sg = [] from by simpa using congrArg List.reverse hsg]
    rfl
  | cons d ds =>
    have hd : d ≠ '\r' := by
      intro h
      apply hr
      rw [← List.mem_reverse, hsg, h]
      exact List.mem_cons_self _ _
    split
    · next heq =>
      exfalso
      injection heq with h1 h2
      injection h2 with h2a _
      exact hd h2a
    · next heq =>
      injection heq with _ h2
      rw [← h2, ← hsg]
      simp
    · next h1 h2 =>
      exact absurd rfl (h2 (d :: ds))

theorem rustLines_joinNl :
    ∀ (segs : List (List Char)), segs ≠ [] →
      (∀ sg ∈ segs, sg ≠ [] ∧ '\n' ∉ sg ∧ '\r' ∉ sg) →
      rustLines (joinSep '\n' segs) = segs := by
  intro segs
  induction segs with
  | nil => intro h _; exact absurd rfl h
  | cons sg rest ih =>
    intro _ hgood
    obtain ⟨hne, hnl, hnr⟩ := hgood sg (List.mem_cons_self sg rest)
    cases hr : rest with
    | nil =>
      show rustLines (joinSep '\n' [sg]) = [sg]
      exact rustLines_single hne hnl
    | cons x xs =>
      rw [joinSep_cons_ne '\n' sg (by simp [hr])]
      unfold rustLines
      rw [splitIncNl_append_nl hnl]
      simp only [List.map_cons]
      rw [stripLineEnd_append_nl hnr]
      have := ih (by simp [hr]) fun s hs => hgood s (List.mem_cons_of_mem sg hs)
      unfold rustLines at this
      rw [← hr] at *
      rw [this]

theorem wrapGo_fits_step (width fuel : Nat) (b : Bool) (c : Char) (t : List Char)
    (hw : width ≠ 0) (hfit : sLen (c :: t) ≤ width) :
    wrapGo width [] (fuel + 1) b (c :: t) = some [c :: t] := by
  simp [wrapGo, sLen_nil, ite_self, hw, hfit]

theorem wrapGo_split_step (width fuel : Nat) (b : Bool) (c : Char) (t : List Char)
    (hw : width ≠ 0) (hnfit : ¬ sLen (c :: t) ≤ width)
    {region : List Char} (hreg : slicePre (c :: t) (min width (sLen (c :: t))) = some region)
    {pos : Nat} (hpos : rfindSpace region = some pos) (hpos0 : 0 < pos)
    {seg rest : List Char} (hseg : slicePre (c :: t) pos = some seg)
    (hrest : sliceSuf (c :: t) pos = some rest) :
    wrapGo width [] (fuel + 1) b (c :: t) =
      (wrapGo width [] fuel false (trimStartL rest)).map (seg :: ·) := by
  simp [wrapGo, sLen_nil, ite_self, hw, hnfit, hreg, hpos, hpos0, hseg, hrest]

theorem wrapGo_prose (width : Nat) :
    ∀ (fuel : Nat) (ws : List (List Char)), (joinSep ' ' ws).length < fuel → ws ≠ [] →
      (∀ w ∈ ws, proseWord w) → (∀ w ∈ ws, w.length < width) → ∀ b,
      ∃ segs, wrapGo width [] fuel b (joinSep ' ' ws) = some segs ∧
        joinSep ' ' segs = joinSep ' ' ws ∧ segs ≠ [] ∧
        ∀ sg ∈ segs, sg ≠ [] ∧ ∀ c ∈ sg, c ∈ joinSep ' ' ws := by
  intro fuel
  induction fuel with
  | zero => intro ws h; omega
  | succ fuel ih =>
    intro ws hfuel hne hprose hlen b
    obtain ⟨w1, rest, rfl⟩ : ∃ w1 rest, ws = w1 :: rest := by
      cases ws with
      | nil => exact absurd rfl hne
      | cons a l => exact ⟨a, l, rfl⟩
    obtain ⟨c1, w1t, rfl⟩ : ∃ c1 w1t, w1 = c1 :: w1t := by
      obtain ⟨hne1, -⟩ := hprose w1 (List.mem_cons_self w1 rest)
      cases w1 with
      | nil => exact absurd rfl hne1
      | cons a l => exact ⟨a, l, rfl⟩
    have allOne : ∀ c ∈ joinSep ' ' ((c1 :: w1t) :: rest), utf8Size c = 1 := by
      intro c hc
      rcases mem_joinSep ' ' hc with h | ⟨w, hw, hcw⟩
      · rw [h]; decide
      · exact ((hprose w hw).2 c hcw).1
    have hslen : sLen (joinSep ' ' ((c1 :: w1t) :: rest)) =
        (joinSep ' ' ((c1 :: w1t) :: rest)).length := sLen_allOne allOne
    have hw1lt : (c1 :: w1t).length < width := hlen _ (List.mem_cons_self _ _)
    have hw0 : width ≠ 0 := by simp at hw1lt; omega
    have hgood : ∀ w ∈ (c1 :: w1t) :: rest, w ≠ [] ∧ ∀ c ∈ w, c ≠ ' ' := by
      intro w hw
      refine ⟨(hprose w hw).1, fun c hc hsp => ?_⟩
      have hws := ((hprose w hw).2 c hc).2.1
      rw [hsp] at hws
      exact absurd hws (by decide)
    obtain ⟨lt, hline⟩ := joinSep_head ' ' c1 w1t rest
    by_cases hfit : sLen (joinSep ' ' ((c1 :: w1t) :: rest)) ≤ width
    · refine ⟨[joinSep ' ' ((c1 :: w1t) :: rest)], ?_, rfl, by simp, ?_⟩
      · rw [hline]
        exact wrapGo_fits_step width fuel b c1 lt hw0 (hline ▸ hfit)
      · intro sg hsg
        simp only [List.mem_singleton] at hsg
        subst hsg
        exact ⟨by rw [hline]; simp, fun c hc => hc⟩
    · have hlenline : width < (joinSep ' ' ((c1 :: w1t) :: rest)).length := by
        rw [← hslen]; omega
      have hrest_ne : rest ≠ [] := by
        intro h
        subst h
        have : (joinSep ' ' [c1 :: w1t]).length = (c1 :: w1t).length := rfl
        omega
      have hjoin2 : joinSep ' ' ((c1 :: w1t) :: rest) =
          (c1 :: w1t) ++ ' ' :: joinSep ' ' rest := joinSep_cons_ne ' ' _ hrest_ne
      have hminr : min width (sLen (joinSep ' ' ((c1 :: w1t) :: rest))) = width := by
        rw [hslen]; omega
      have hreg : slicePre (joinSep ' ' ((c1 :: w1t) :: rest))
          (min width (sLen (joinSep ' ' ((c1 :: w1t) :: rest)))) =
          some ((joinSep ' ' ((c1 :: w1t) :: rest)).take width) := by
        rw [hminr]
        exact slicePre_allOne allOne (by omega)
      have hspace_line : (joinSep ' ' ((c1 :: w1t) :: rest)).getD (c1 :: w1t).length 'A' = ' ' := by
        rw [hjoin2]
        have := getD_append_right (c1 :: w1t) (' ' :: joinSep ' ' rest) 0 'A'
        simpa using this
      have hspace_mem : ' ' ∈ (joinSep ' ' ((c1 :: w1t) :: rest)).take width := by
        have hreg_val : ((joinSep ' ' ((c1 :: w1t) :: rest)).take width).getD
            (c1 :: w1t).length 'A' = ' ' := by
          rw [getD_take 'A' hw1lt]
          exact hspace_line
        have hm := getD_mem (l := (joinSep ' ' ((c1 :: w1t) :: rest)).take width)
          (p := (c1 :: w1t).length) (by rw [List.length_take]; omega) 'A'
        rw [hreg_val] at hm
        exact hm
      obtain ⟨pos, hpos⟩ : ∃ pos,
          rfindSpace ((joinSep ' ' ((c1 :: w1t) :: rest)).take width) = some pos := by
        have hs := rfindSpace_isSome hspace_mem
        cases h : rfindSpace ((joinSep ' ' ((c1 :: w1t) :: rest)).take width) with
        | none => rw [h] at hs; cases hs
        | some q => exact ⟨q, rfl⟩
      have hallone_reg : ∀ c ∈ (joinSep ' ' ((c1 :: w1t) :: rest)).take width,
          utf8Size c = 1 := fun c hc => allOne c (List.mem_of_mem_take hc)
      obtain ⟨hposlt, hposval⟩ := rfindSpace_mem hallone_reg hpos
      have hposlt' : pos < width := by
        rw [List.length_take] at hposlt
        omega
      have hpos_line : (joinSep ' ' ((c1 :: w1t) :: rest)).getD pos 'A' = ' ' := by
        rw [← getD_take 'A' hposlt']
        exact hposval
      have hposlen : pos < (joinSep ' ' ((c1 :: w1t) :: rest)).length := by omega
      have hpos0 : 0 < pos := by
        rcases Nat.eq_zero_or_pos pos with h0 | h
        · exfalso
          subst h0
          rw [hline] at hpos_line
          simp only [List.getD_cons_zero] at hpos_line
          have hws := ((hprose (c1 :: w1t) (List.mem_cons_self _ _)).2 c1
            (List.mem_cons_self _ _)).2.1
          rw [hpos_line] at hws
          exact absurd hws (by decide)
        · exact h
      obtain ⟨ws₁, ws₂, hsplit, hne1, hne2, hplen, htake, hdrop⟩ :=
        joinSep_space_split _ hgood pos hposlen hpos_line
      have hseg : slicePre (joinSep ' ' ((c1 :: w1t) :: rest)) pos =
          some ((joinSep ' ' ((c1 :: w1t) :: rest)).take pos) :=
        slicePre_allOne allOne (le_of_lt hposlen)
      have hrestS : sliceSuf (joinSep ' ' ((c1 :: w1t) :: rest)) pos =
          some ((joinSep ' ' ((c1 :: w1t) :: rest)).drop pos) :=
        sliceSuf_allOne allOne (le_of_lt hposlen)
      obtain ⟨w2, rest2, rfl⟩ : ∃ w2 rest2, ws₂ = w2 :: rest2 := by
        cases ws₂ with
        | nil => exact absurd rfl hne2
        | cons a l => exact ⟨a, l, rfl⟩
      have hw2mem : w2 ∈ (c1 :: w1t) :: rest := by
        rw [hsplit]
        exact List.mem_append_right ws₁ (List.mem_cons_self _ _)
      obtain ⟨c2, w2t, rfl⟩ : ∃ c2 w2t, w2 = c2 :: w2t := by
        obtain ⟨hne2', -⟩ := hprose w2 hw2mem
        cases w2 with
        | nil => exact absurd rfl hne2'
        | cons a l => exact ⟨a, l, rfl⟩
      obtain ⟨t2, hj2⟩ := joinSep_head ' ' c2 w2t rest2
      have hc2ws : isRustWhitespace c2 = false :=
        ((hprose _ hw2mem).2 c2 (List.mem_cons_self _ _)).2.1
      have htrim : trimStartL (' ' :: joinSep ' ' ((c2 :: w2t) :: rest2)) =
          joinSep ' ' ((c2 :: w2t) :: rest2) := by
        unfold trimStartL
        rw [List.dropWhile_cons_of_pos (by decide : isRustWhitespace ' ' = true)]
        rw [hj2, List.dropWhile_cons_of_neg (by rw [hc2ws]; simp)]
      have hfuel2 : (joinSep ' ' ((c2 :: w2t) :: rest2)).length < fuel := by
        have := congrArg List.length hdrop
        rw [List.length_drop] at this
        simp only [List.length_cons] at this
        omega
      have hprose₂ : ∀ w ∈ (c2 :: w2t) :: rest2, proseWord w := by
        intro w hw
        apply hprose
        rw [hsplit]
        exact List.mem_append_right ws₁ hw
      have hlen₂ : ∀ w ∈ (c2 :: w2t) :: rest2, w.length < width := by
        intro w hw
        apply hlen
        rw [hsplit]
        exact List.mem_append_right ws₁ hw
      obtain ⟨segs₂, hrun₂, hjoin₂, hsne₂, hsg₂⟩ :=
        ih ((c2 :: w2t) :: rest2) hfuel2 (by simp) hprose₂ hlen₂ false
      refine ⟨(joinSep ' ' ((c1 :: w1t) :: rest)).take pos :: segs₂, ?_, ?_, by simp, ?_⟩
      · rw [hline]
        rw [wrapGo_split_step width fuel b c1 lt hw0 (hline ▸ hfit) (hline ▸ hreg) hpos hpos0
          (hline ▸ hseg) (hline ▸ hrestS)]
        rw [← hline, hdrop, htrim, hrun₂]
        rfl
      · rw [joinSep_cons_ne ' ' _ hsne₂, hjoin₂, htake, hsplit,
          joinSep_append_ne ' ' hne1 hne2]
      · intro sg hsg
        rcases List.mem_cons.mp hsg with h | h
        · subst h
          constructor
          · have hlt : ((joinSep ' ' ((c1 :: w1t) :: rest)).take pos).length = pos := by
              rw [List.length_take]
              omega
            intro hnil
            rw [hnil] at hlt
            simp at hlt
            omega
          · exact fun c hc => List.mem_of_mem_take hc
        · obtain ⟨hsgne, hsgmem⟩ := hsg₂ sg h
          refine ⟨hsgne, fun c hc => ?_⟩
          have hmem2 : c ∈ (joinSep ' ' ((c1 :: w1t) :: rest)).drop pos := by
            rw [hdrop]
            exact List.mem_cons_of_mem ' ' (hsgmem c hc)
          exact List.mem_of_mem_drop hmem2

theorem continuation_indent_nil {line : List Char} {c1 : Char} {lt : List Char}
    (hline : line = c1 :: lt) (hc1 : isRustWhitespace c1 = false)
    (hdash : startsWithL dashSpace line = false)
    (hstar : startsWithL starSpace line = false)
    (hplus : startsWithL plusSpace line = false)
    (hgt : startsWithL gtSpace line = false)
    (hord : orderedMarker line = false) :
    continuation_indent line = [] := by
  have hlead : line.takeWhile isRustWhitespace = [] := by
    rw [hline]
    exact List.takeWhile_cons_of_neg (by simp [hc1])
  simp only [continuation_indent, hlead, List.length_nil, List.drop_zero]
  cases hfs : findSub dotSpace line with
  | none => simp [hfs, hdash, hstar, hplus, hgt]
  | some pos =>
    have hmk : (digitsPre line pos && decide (pos ≤ 4)) = false := by
      have h := hord
      simp only [orderedMarker, hfs] at h
      exact h
    simp [hfs, hmk, hdash, hstar, hplus, hgt]

theorem hwGo_fits (width : Nat) :
    ∀ (ls : List (List Char)) (b : Bool), (∀ l ∈ ls, sLen l ≤ width) → hwGo width b ls = some ls := by
  intro ls
  induction ls with
  | nil => intro b _; rfl
  | cons l ls ih =>
    intro b hfit
    have hl : sLen l ≤ width := hfit l (by simp)
    have hrest : ∀ x ∈ ls, sLen x ≤ width := fun x hx => hfit x (by simp [hx])
    simp only [hwGo]
    split_ifs with hf1 hf2 hf3 hf4 hf5 <;> rw [ih _ hrest] <;> rfl

/-! ## Claim theorems -/

/-- C2: the claim states that `hard_wrap` is total on every input, including
non-ASCII multi-byte text, and that a forced split never lands inside a
character.  The code slices `remaining[..avail]` at a raw byte offset: on a
line of two-byte characters with width 3 the offset 3 is not a character
boundary, so Rust panics (modelled by `none`).  The specification's §9
explicitly calls this a correctness risk to fix, so the code, not the claim,
is at fault. -/
theorem c2_hard_wrap_panics_on_multibyte : hard_wrap c2Input 3 = none := by decide

/-- C4 counterexample: the claim "hard_wrap(c, w) = c whenever every line of c
has length at most w and w > 0" fails for `c = "a\n"`, `w = 5`: the single line
`"a"` fits, but `lines()`/`join("\n")` drops the trailing newline, so the
output is `"a" ≠ "a\n"`. -/
theorem c4_counterexample :
    (0 < 5 ∧ ∀ l ∈ rustLines c4Input, sLen l ≤ 5) ∧ hard_wrap c4Input 5 ≠ some c4Input := by
  refine ⟨⟨by decide, by decide⟩, by decide⟩

/-- C4 (amended): for every content string `c` that is the newline-join of its
own lines (no trailing newline and no `"\r\n"` sequence) and every width
`w > 0` such that every line of `c` has byte length at most `w`,
`hard_wrap c w` returns `c` unchanged. -/
theorem c4_hard_wrap_idempotent (c : List Char) (w : Nat) (hw : 0 < w)
    (hjoin : joinSep '\n' (rustLines c) = c)
    (hfit : ∀ l ∈ rustLines c, sLen l ≤ w) :
    hard_wrap c w = some c := by
  unfold hard_wrap
  rw [if_neg (by omega), hwGo_fits w (rustLines c) false hfit]
  simpa using hjoin

/-- C4 witness: the amended theorem applied at the concrete input `"ok then"`
with width 5. -/
theorem c4_hard_wrap_idempotent_witness :
    (0 < 7 ∧ joinSep '\n' (rustLines c4FitInput) = c4FitInput ∧
      ∀ l ∈ rustLines c4FitInput, sLen l ≤ 7) ∧ hard_wrap c4FitInput 7 = some c4FitInput :=
  ⟨⟨by decide, by decide, by decide⟩,
    c4_hard_wrap_idempotent c4FitInput 7 (by decide) (by decide) (by decide)⟩

/-- C1: the claim states that whenever the natural total (per-column max cell
length floored at 3) is strictly below the available content width, the
negotiated widths sum to the available width with every column at least 3 and
at least its natural width.  The code violates this: for four columns of
natural width 3 and available width 14 (a four-column table of one-character
cells at terminal width 27), the rounded shares overshoot the surplus, the
last column's `extra - distributed` wraps (release semantics; a debug build
panics on the underflow), and the last column ends up at width 2 — below the
3-character minimum and below its natural width. -/
theorem c1_distribute_widths_underflow :
    distribute_widths [3, 3, 3, 3] 14 = [4, 4, 4, 2] ∧
      ¬ (∀ w ∈ distribute_widths [3, 3, 3, 3] 14, 3 ≤ w) := by
  constructor
  · decide
  · decide

/-- C6: `find_code_fence_regions` returns exactly one region per opening fence
marker at a line start (the fence-start lines reached outside a fence, in
document order, as captured by the `openGo` state machine), the region start
indices are strictly increasing, and a region whose opening fence has no
subsequent bare closing fence line has `end_line = lines.length - 1`. -/
theorem c6_find_code_fence_regions (lines : List (List Char)) :
    (find_code_fence_regions lines).map (·.start_line) = openingIndices lines ∧
      List.Chain' (· < ·) ((find_code_fence_regions lines).map (·.start_line)) ∧
        ∀ r ∈ find_code_fence_regions lines,
          (∀ j < lines.length, r.start_line < j → isBareClose (lines.getD j []) = false) →
            r.end_line = lines.length - 1 := by
  have hmap : (find_code_fence_regions lines).map (·.start_line) = openingIndices lines := by
    unfold find_code_fence_regions openingIndices
    exact regionsGo_map_start (lines.length + 1) lines.length 0 lines (by omega)
  refine ⟨hmap, ?_, ?_⟩
  · rw [hmap]
    exact openGo_chain lines 0 false
  · intro r hr hj
    exact regionsGo_unclosed lines (lines.length + 1) 0 lines (by omega) (by simp) r hr hj

/-- C6 witness: the theorem applied to a two-line buffer whose fence is never
closed; the single region starts at the opening fence and ends at the last
line index 1. -/
theorem c6_find_code_fence_regions_witness :
    (find_code_fence_regions c6Lines).map (·.start_line) = openingIndices c6Lines ∧
      (⟨0, 1, "rust".toList⟩ : CodeFenceRegion) ∈ find_code_fence_regions c6Lines ∧
        (⟨0, 1, "rust".toList⟩ : CodeFenceRegion).end_line = c6Lines.length - 1 :=
  ⟨(c6_find_code_fence_regions c6Lines).1, by decide,
    (c6_find_code_fence_regions c6Lines).2.2 ⟨0, 1, "rust".toList⟩ (by decide) (by decide)⟩

/-- C7: rendering `"# Hello"` at width 80 produces a line whose concatenated
span text contains `"# Hello"`, immediately followed by a line of 80 heavy
rule characters `'━'`, immediately followed by a blank line (the rendered
output is in fact a leading blank line, the heading line, the rule and the
trailing blank). -/
theorem c7_heading_rule_blank :
    ∃ i, containsSubstr ("# Hello".toList) (lineTextAt hashHelloLines i) = true ∧
      lineTextAt hashHelloLines (i + 1) = List.replicate 80 '━' ∧
        lineTextAt hashHelloLines (i + 2) = [] :=
  ⟨1, by decide, by decide, by decide⟩

/-- C8: a buffer line is classified as a table separator row by
`is_separator_row` (table_format.rs:250-276) iff it contains `'|'` and, after
stripping an optional empty leading cell and an optional empty trailing cell,
the remaining cell list is non-empty and every remaining cell is non-empty
after trimming and consists only of `'-'`, `':'` and space characters. -/
theorem c8_separator_row_detection (line : List Char) :
    is_separator_row line = true ↔ separator_row_spec line := by
  unfold is_separator_row separator_row_spec
  rw [sepInner2_eq_innerCellsSpec]
  by_cases hc : (trimL line).contains '|' = true
  · have hmemt : '|' ∈ trimL line := by simpa using hc
    have hmeml : '|' ∈ line := (mem_trimL_of_not (by decide) line).mp hmemt
    have hcl : line.contains '|' = true := by simpa using hmeml
    rw [hc, hcl]
    simp only [Bool.not_true, Bool.false_eq_true, if_false, true_and]
    by_cases hie : (innerCellsSpec line).isEmpty = true
    · rw [if_pos hie]
      simp [List.isEmpty_iff.mp hie]
    · rw [if_neg hie]
      have hne : innerCellsSpec line ≠ [] := by
        intro h
        exact hie (List.isEmpty_iff.mpr h)
      simp [List.all_eq_true, hne, List.isEmpty_iff, and_assoc, or_assoc]
  · have hcf : (trimL line).contains '|' = false := by simpa using hc
    have hmemt : '|' ∉ trimL line := by
      intro h
      have hcontra : (trimL line).contains '|' = true := by simpa using h
      rw [hcontra] at hcf
      cases hcf
    have hmeml : '|' ∉ line := fun h => hmemt ((mem_trimL_of_not (by decide) line).mpr h)
    rw [hcf]
    simp [hmeml]

/-- C9: after any sequence of render and poll operations from the initial
preview state, (a) every entry of the URL-to-path file cache holds a
successful resolution; (b) a reference whose resolution fails inserts nothing
into the file cache, so it is re-attempted on every later reference; (c) every
delivered decode result — success or failure alike — is stored in the decode
cache by the poll step; and (d) a render step dispatches a decode only for
paths absent from the decode cache. -/
theorem c9_cache_retry_policy (ops : List POp) :
    (∀ u v, lookupA (runOps ops).fileCache u = some v → v.isSome = true) ∧
      (∀ r : ImgRef, r.resolvesTo = none → lookupA (runOps ops).fileCache r.url = none →
        (processInfo (runOps ops) r).fileCache = (runOps ops).fileCache) ∧
      (∀ (delivered : List DecodedMsg) (p : Nat) (img hint : Option Nat),
        (delivered.map DecodedMsg.path).Nodup → (⟨p, img, hint⟩ : DecodedMsg) ∈ delivered →
          p ∈ (runOps ops).pending →
          lookupA (poll_decoded_images (runOps ops) delivered).imageDecodeCache p = some img) ∧
      (∀ (refs : List ImgRef) (p : Nat), p ∈ (renderImages (runOps ops) refs).pending →
        p ∈ (runOps ops).pending ∨ lookupA (runOps ops).imageDecodeCache p = none) := by
  obtain ⟨_h1, _h2, _h3, h4⟩ := pinv_runOps ops
  exact ⟨h4, fun r hres hlk => processInfo_failed_resolution _ r hres hlk,
    fun delivered p img hint hnd hmem hp => poll_stores p img hint delivered _ hnd hmem hp,
    fun refs p hp => renderImages_pending_sub p refs _ hp⟩

/-- C9 witness: one render resolving URL 0 to path 5, then each component of
the theorem at concrete inputs — the file cache holds the successful
resolution, a failing reference (URL 1) leaves the file cache unchanged, a
delivered decode result for path 5 lands in the decode cache, and the pending
decode for path 5 was dispatched while it was absent from the decode cache. -/
theorem c9_cache_retry_policy_witness :
    (lookupA (runOps wOps).fileCache 0 = some (some 5) ∧
        (some 5 : Option Nat).isSome = true) ∧
      (processInfo (runOps wOps) ⟨1, true, none⟩).fileCache = (runOps wOps).fileCache ∧
        lookupA (poll_decoded_images (runOps wOps)
            [⟨5, some 9, none⟩]).imageDecodeCache 5 = some (some 9) ∧
          (5 ∈ (runOps wOps).pending ∨ lookupA (runOps wOps).imageDecodeCache 5 = none) :=
  ⟨⟨by decide, (c9_cache_retry_policy wOps).1 0 (some 5) (by decide)⟩,
    (c9_cache_retry_policy wOps).2.1 ⟨1, true, none⟩ (by decide) (by decide),
    (c9_cache_retry_policy wOps).2.2.1 [⟨5, some 9, none⟩] 5 (some 9) none
      (by decide) (by decide) (by decide),
    (c9_cache_retry_policy wOps).2.2.2 [wRef] 5 (by decide)⟩

/-- C10: after any sequence of render and poll operations, each distinct path
has at most one background decode in flight, every in-flight decode is marked
in the in-flight set, and re-rendering the same image reference is a no-op —
multiple renders of one path before its decode result arrives dispatch exactly
one decode. -/
theorem c10_single_decode_in_flight (ops : List POp) :
    (∀ p, (runOps ops).pending.count p ≤ 1) ∧
      (∀ p, p ∈ (runOps ops).pending → p ∈ (runOps ops).decodingInFlight) ∧
      (∀ r : ImgRef, processInfo (processInfo (runOps ops) r) r = processInfo (runOps ops) r) := by
  obtain ⟨h1, _h2, h3, _h4⟩ := pinv_runOps ops
  exact ⟨fun p => List.nodup_iff_count_le_one.mp h1 p, h3, fun r => processInfo_idem _ r⟩

/-- C10 witness: the theorem at the concrete one-render history — path 5 is
pending exactly once, it is marked in flight, and rendering the same
reference again changes nothing. -/
theorem c10_single_decode_in_flight_witness :
    ((runOps wOps).pending.count 5 ≤ 1) ∧ 5 ∈ (runOps wOps).decodingInFlight ∧
      processInfo (processInfo (runOps wOps) wRef) wRef = processInfo (runOps wOps) wRef :=
  ⟨(c10_single_decode_in_flight wOps).1 5,
    (c10_single_decode_in_flight wOps).2.1 5 (by decide),
    (c10_single_decode_in_flight wOps).2.2 wRef⟩

/-- C3: for every list of natural column widths and every available content
width, the per-column widths computed by the interactive preview renderer's
table path (`render_table`, renderer.rs:529-581) equal the per-column widths
computed by the save-time reformatter's path (`try_format_table` via
`distribute_widths` and `shrink_widths`, table_format.rs:191-220,297-347). -/
theorem c3_render_table_refines_try_format_table (naturalRaw : List Nat) (available : Nat) :
    renderTableColWidths naturalRaw available = tryFormatTableColWidths naturalRaw available := by
  unfold renderTableColWidths tryFormatTableColWidths
  by_cases hem : naturalRaw.isEmpty
  · simp [hem]
  · simp only [hem, if_false, Bool.false_eq_true]
    have ht : 0 < (naturalRaw.map (fun w => max w 3)).sum := sum_map_max3_pos hem
    set nw := naturalRaw.map (fun w => max w 3) with hnw
    set total := nw.sum with htot
    by_cases h1 : total < available
    · rw [if_pos h1, if_pos ⟨ht, h1⟩]
      unfold distribute_widths
      rw [if_neg (by omega)]
      exact rtExpandGo_eq_distGo _ _ _ ht _ _
    · rw [if_neg h1]
      by_cases h2 : available < total ∧ 0 < available
      · rw [if_pos h2, if_neg (by omega), if_pos h2]
        unfold shrink_widths
        rw [if_neg (by omega)]
        exact rtShrinkGo_eq_shrinkGo _ _ _ _
      · rw [if_neg h2, if_neg (by omega), if_neg h2]

/-- C5 counterexample: on the plain-prose input `"abc de"` at width 3 the
forced split keeps the leading space of the remainder (`" de"`), so rejoining
the output lines of `hard_wrap` with single spaces yields `"abc  de"`, not the
original text. -/
theorem c5_counterexample :
    hard_wrap c5Input 3 = some c5Out ∧
      joinSep ' ' (rustLines c5Out) ≠ c5Input := by
  exact ⟨by decide, by decide⟩

/-- C5 (amended): for a single line of plain prose — single-space-separated
non-empty words of single-byte non-whitespace characters other than `'|'`,
each word strictly shorter than the width, the line carrying no unordered-list
(`"- "`, `"* "`, `"+ "`), blockquote (`"> "`) or ordered-list (digits + `". "`
within the first four characters) marker — `hard_wrap` succeeds and rejoining
its output lines with single spaces reproduces the original text exactly. -/
theorem c5_hard_wrap_prose_rejoin (width : Nat) (ws : List (List Char))
    (hne : ws ≠ []) (hprose : ∀ w ∈ ws, proseWord w)
    (hlen : ∀ w ∈ ws, w.length < width)
    (hdash : startsWithL dashSpace (joinSep ' ' ws) = false)
    (hstar : startsWithL starSpace (joinSep ' ' ws) = false)
    (hplus : startsWithL plusSpace (joinSep ' ' ws) = false)
    (hgt : startsWithL gtSpace (joinSep ' ' ws) = false)
    (hord : orderedMarker (joinSep ' ' ws) = false) :
    ∃ out, hard_wrap (joinSep ' ' ws) width = some out ∧
      joinSep ' ' (rustLines out) = joinSep ' ' ws := by
  obtain ⟨w1, rest, rfl⟩ : ∃ w1 rest, ws = w1 :: rest := by
    cases ws with
    | nil => exact absurd rfl hne
    | cons a l => exact ⟨a, l, rfl⟩
  obtain ⟨c1, w1t, rfl⟩ : ∃ c1 w1t, w1 = c1 :: w1t := by
    obtain ⟨hne1, -⟩ := hprose w1 (List.mem_cons_self w1 rest)
    cases w1 with
    | nil => exact absurd rfl hne1
    | cons a l => exact ⟨a, l, rfl⟩
  obtain ⟨lt, hline⟩ := joinSep_head ' ' c1 w1t rest
  have hc1 : isRustWhitespace c1 = false :=
    ((hprose _ (List.mem_cons_self _ _)).2 c1 (List.mem_cons_self _ _)).2.1
  have hchars : ∀ c ∈ joinSep ' ' ((c1 :: w1t) :: rest), c ≠ '\n' ∧ c ≠ '\r' ∧ c ≠ '|' := by
    intro c hc
    rcases mem_joinSep ' ' hc with h | ⟨w, hw, hcw⟩
    · subst h
      exact ⟨by decide, by decide, by decide⟩
    · obtain ⟨-, hws, hnp⟩ := (hprose w hw).2 c hcw
      refine ⟨?_, ?_, hnp⟩ <;> intro he <;> rw [he] at hws <;> exact absurd hws (by decide)
  have hnl : '\n' ∉ joinSep ' ' ((c1 :: w1t) :: rest) := fun h => (hchars _ h).1 rfl
  have hnr : '\r' ∉ joinSep ' ' ((c1 :: w1t) :: rest) := fun h => (hchars _ h).2.1 rfl
  have hpipe : '|' ∉ joinSep ' ' ((c1 :: w1t) :: rest) := fun h => (hchars _ h).2.2 rfl
  have hcpipe : (joinSep ' ' ((c1 :: w1t) :: rest)).contains '|' = false := by
    simpa using hpipe
  have hw1lt : (c1 :: w1t).length < width := hlen _ (List.mem_cons_self _ _)
  have hw0 : width ≠ 0 := by
    simp at hw1lt
    omega
  have hlinene : joinSep ' ' ((c1 :: w1t) :: rest) ≠ [] := by
    rw [hline]
    simp
  have hrl : rustLines (joinSep ' ' ((c1 :: w1t) :: rest)) =
      [joinSep ' ' ((c1 :: w1t) :: rest)] := rustLines_single hlinene hnl
  have htrim : trimStartL (joinSep ' ' ((c1 :: w1t) :: rest)) =
      joinSep ' ' ((c1 :: w1t) :: rest) := by
    simp only [trimStartL]
    rw [hline]
    exact List.dropWhile_cons_of_neg (by simp [hc1])
  have hthru : ∀ (o : Option (List (List Char))),
      o = some [joinSep ' ' ((c1 :: w1t) :: rest)] →
      ∃ out, o.map (joinSep '\n') = some out ∧
        joinSep ' ' (rustLines out) = joinSep ' ' ((c1 :: w1t) :: rest) := by
    intro o ho
    refine ⟨joinSep ' ' ((c1 :: w1t) :: rest), ?_, ?_⟩
    · rw [ho]
      rfl
    · rw [hrl]
      rfl
  simp only [hard_wrap, if_neg hw0, hrl]
  by_cases h1 : (startsWithL fence3 (joinSep ' ' ((c1 :: w1t) :: rest)) ||
      startsWithL tilde3 (joinSep ' ' ((c1 :: w1t) :: rest))) = true
  · exact hthru _ (by simp [hwGo, htrim, h1])
  · rw [Bool.not_eq_true] at h1
    by_cases h2 : startsWithL ['#'] (joinSep ' ' ((c1 :: w1t) :: rest)) = true
    · exact hthru _ (by simp [hwGo, htrim, h1, h2])
    · rw [Bool.not_eq_true] at h2
      by_cases hfit : sLen (joinSep ' ' ((c1 :: w1t) :: rest)) ≤ width
      · exact hthru _ (by simp [hwGo, htrim, h1, h2, hcpipe, hfit])
      · have hcind : continuation_indent (joinSep ' ' ((c1 :: w1t) :: rest)) = [] :=
          continuation_indent_nil hline hc1 hdash hstar hplus hgt hord
        obtain ⟨segs, hrun, hjoin, hsne, hsg⟩ :=
          wrapGo_prose width ((joinSep ' ' ((c1 :: w1t) :: rest)).length + 1)
            ((c1 :: w1t) :: rest) (by omega) (by simp) hprose hlen true
        have hwl : wrap_line (joinSep ' ' ((c1 :: w1t) :: rest)) width
            (continuation_indent (joinSep ' ' ((c1 :: w1t) :: rest))) = some segs := by
          rw [hcind]
          simp only [wrap_line]
          exact hrun
        refine ⟨joinSep '\n' segs, ?_, ?_⟩
        · simp [hwGo, htrim, h1, h2, hcpipe, hpipe, hfit, hwl]
        · have hrls : rustLines (joinSep '\n' segs) = segs := by
            refine rustLines_joinNl segs hsne fun sg hs => ?_
            obtain ⟨hsgne, hsgmem⟩ := hsg sg hs
            exact ⟨hsgne, fun h => (hchars _ (hsgmem _ h)).1 rfl,
              fun h => (hchars _ (hsgmem _ h)).2.1 rfl⟩
          rw [hrls, hjoin]

/-- C5 witness: the amended theorem at the concrete prose words
`["wrap", "these", "tiny", "words"]` and width 12, where wrapping occurs. -/
theorem c5_hard_wrap_prose_rejoin_witness :
    ∃ out, hard_wrap (joinSep ' ' c5wWords) 12 = some out ∧
      joinSep ' ' (rustLines out) = joinSep ' ' c5wWords :=
  c5_hard_wrap_prose_rejoin 12 c5wWords (by decide)
    (by simp only [proseWord]; decide) (by decide)
    (by decide) (by decide) (by decide) (by decide) (by decide)

end Marko
